import Mathlib

/-!
Verification of the ByteArena/ecs entity-component store (the revision of
`ecs.go` in which `Tag` is a struct of a `uint64` bitmask `flags` and a
boolean `inverse` marker; that revision spans the functions `Tag.matches`,
`BuildTag`, `Manager.NewEntity`, `Manager.NewComponent`, `Entity.AddComponent`,
`Entity.RemoveComponent`, `Manager.GetEntityByID`, `Manager.Query`,
`Manager.CreateView`, `Manager.DisposeEntity`, `View.add`, `View.remove`).

Modelling conventions:
* Go pointers to `Entity` and `Component` objects are modelled by their unique
  numeric IDs; the mutable fields behind those pointers (`entity.tag`,
  `component.data`) live in heaps inside `Manager` (`tags`, `compData`,
  `compTags`, `compDestr`), so that mutation through one alias is visible
  through every alias, exactly as with Go pointers.
* Go `map` values are modelled as association lists with `mapLookup`,
  `mapInsert` (replace-or-append) and `mapErase`; `map[k]` with a missing key,
  which cannot happen for pointers obtained from this manager, is modelled with
  a default that theorems rule out by hypotheses.
* `uint32` counter arithmetic keeps the source's wrap-around: increments are
  taken modulo 2^32 and the `nextid - 1` subtraction is modelled as addition
  of 2^32 - 1 modulo 2^32.  The 64-bit tag operations `|`, `&`, `^` never
  overflow, so plain `Nat` bitwise operations are bit-exact for them.
* Destructor callbacks are caller-supplied side effects; the model records
  for each component whether a destructor is set (`compDestr`) and exposes the
  exact guard under which `RemoveComponent` would invoke it
  (`wouldCallDestructor`), while the state transition itself treats the
  callback as effect-free.
* Panics are modelled by `Option`: `newComponentChecked` returns `none` where
  `NewComponent` panics with "Component overflow (limited to 64)".
* In `View.remove` the Go code dereferences each stored `*QueryResult`; a
  `nil` entry (which `View.add` can append when `GetEntityByID` returns nil)
  would crash there.  The model's scan treats such an entry as not matching;
  every theorem below about `View.remove` is confined to states in which the
  scanned view contains no `nil` entry, so the difference is unobservable.
-/

abbrev EntityID := Nat

abbrev ComponentID := Nat

/-- `uint32` modulus for the shared `componentNumInc` counter. -/
def U32 : Nat := 2 ^ 32

/-- `type Tag struct { flags uint64; inverse bool }`. -/
structure Tag where
  flags : Nat
  inverse : Bool
deriving DecidableEq, Repr

/-- `func (tag Tag) matches(smallertag Tag) bool`: containment of the
required (`smallertag`) bits in the candidate (receiver), negated when the
required tag carries the inverse marker. -/
def Tag.matches (tag : Tag) (smallertag : Tag) : Bool :=
  let res := tag.flags &&& smallertag.flags == smallertag.flags
  if smallertag.inverse then !res else res

/-- `func (tag *Tag) binaryORInPlace(othertag Tag) *Tag`. -/
def Tag.binaryORInPlace (tag : Tag) (othertag : Tag) : Tag :=
  { tag with flags := tag.flags ||| othertag.flags }

/-- `func (tag *Tag) binaryNOTInPlace(othertag Tag) *Tag` — note the source
uses XOR (`^=`), not AND-NOT. -/
def Tag.binaryNOTInPlace (tag : Tag) (othertag : Tag) : Tag :=
  { tag with flags := tag.flags ^^^ othertag.flags }

/-- `func (tag Tag) clone() Tag`. -/
def Tag.clone (tag : Tag) : Tag := tag

/-- `func (tag Tag) Inverse(values ...bool) Tag`. -/
def Tag.Inverse (tag : Tag) (values : List Bool := []) : Tag :=
  let c := tag.clone
  let inv := match values with
    | [] => true
    | v :: _ => v
  { c with inverse := inv }

/-- Association-list model of a Go `map` with `Nat` keys: lookup. -/
def mapLookup {β : Type} (l : List (Nat × β)) (k : Nat) : Option β :=
  match l with
  | [] => none
  | (k', v) :: rest => if k' = k then some v else mapLookup rest k

/-- Association-list model of a Go `map`: `m[k] = v` (replace or append). -/
def mapInsert {β : Type} (l : List (Nat × β)) (k : Nat) (v : β) : List (Nat × β) :=
  match l with
  | [] => [(k, v)]
  | (k', v') :: rest => if k' = k then (k, v) :: rest else (k', v') :: mapInsert rest k v

/-- Association-list model of a Go `map`: `delete(m, k)`. -/
def mapErase {β : Type} (l : List (Nat × β)) (k : Nat) : List (Nat × β) :=
  match l with
  | [] => []
  | (k', v') :: rest => if k' = k then mapErase rest k else (k', v') :: mapErase rest k

/-- `type QueryResult struct { Entity *Entity; Components map[*Component]interface{} }`.
The entity pointer is its ID; each component payload is `Option α` because the
`interface{}` values stored by `Query` may be Go `nil` when the payload lookup
missed. -/
structure QR (α : Type) where
  eid : EntityID
  components : List (ComponentID × Option α)
deriving DecidableEq, Repr

/-- `type View struct { tag Tag; entities QueryResultCollection; ... }`.
Entries are `Option (QR α)` because `View.add` appends the raw result of
`GetEntityByID`, which may be Go `nil`. -/
structure ViewState (α : Type) where
  tag : Tag
  entities : List (Option (QR α))
deriving DecidableEq, Repr

/-- The manager together with the heaps of every `Entity` and `Component`
object it ever created (see the modelling conventions above).  The `lock`
fields of the source are concurrency artefacts with no sequential content and
are omitted. -/
structure Manager (α : Type) where
  entityIdInc : Nat
  componentNumInc : Nat
  entities : List EntityID
  entitiesByID : List EntityID
  tags : List (EntityID × Tag)
  components : List ComponentID
  compTags : List (ComponentID × Tag)
  compData : List (ComponentID × List (EntityID × α))
  compDestr : List ComponentID
  views : List (ViewState α)
deriving DecidableEq, Repr

/-- `func NewManager() *Manager`. -/
def newManager {α : Type} : Manager α :=
  { entityIdInc := 0
    componentNumInc := 0
    entities := []
    entitiesByID := []
    tags := []
    components := []
    compTags := []
    compData := []
    compDestr := []
    views := [] }

/-- The `tag` field of the entity object with a given ID (`entity.tag`). -/
def etag {α : Type} (m : Manager α) (e : EntityID) : Tag :=
  (mapLookup m.tags e).getD ⟨0, false⟩

/-- The `tag` field of the component object with a given ID (`component.tag`). -/
def ctag {α : Type} (m : Manager α) (c : ComponentID) : Tag :=
  (mapLookup m.compTags c).getD ⟨0, false⟩

/-- `component.data[e]`. -/
def dataLookup {α : Type} (m : Manager α) (c : ComponentID) (e : EntityID) : Option α :=
  mapLookup ((mapLookup m.compData c).getD []) e

/-- `component.data[e] = d`. -/
def dataInsert {α : Type} (m : Manager α) (c : ComponentID) (e : EntityID) (d : α) :
    List (ComponentID × List (EntityID × α)) :=
  mapInsert m.compData c (mapInsert ((mapLookup m.compData c).getD []) e d)

/-- `delete(component.data, e)`. -/
def dataErase {α : Type} (m : Manager α) (c : ComponentID) (e : EntityID) :
    List (ComponentID × List (EntityID × α)) :=
  mapInsert m.compData c (mapErase ((mapLookup m.compData c).getD []) e)

/-- An element acceptable to `BuildTag`: a `Tag` value or a `*Component`. -/
inductive BuildElem where
  | tagElem (t : Tag)
  | compElem (c : ComponentID)
deriving DecidableEq, Repr

/-- `func BuildTag(elements ...interface{}) Tag`: starts from `Tag{}` and ORs
in the flags of every element (the manager argument resolves `*Component`
pointers to their tags). -/
def buildTag {α : Type} (m : Manager α) (elements : List BuildElem) : Tag :=
  elements.foldl
    (fun tag e =>
      match e with
      | BuildElem.tagElem t => tag.binaryORInPlace t
      | BuildElem.compElem c => tag.binaryORInPlace (ctag m c))
    ⟨0, false⟩

/-- `func (entity Entity) HasComponent(component *Component) bool`. -/
def hasComponent {α : Type} (m : Manager α) (e : EntityID) (c : ComponentID) : Bool :=
  (etag m e).matches (ctag m c)

/-- `func (entity Entity) GetComponentData(component *Component) (interface{}, bool)`:
`some d` models `(d, true)`, `none` models `(nil, false)`. -/
def getComponentData {α : Type} (m : Manager α) (e : EntityID) (c : ComponentID) : Option α :=
  dataLookup m c e

/-- The inner loop of `fetchComponentsForEntity` over the registry, aborting
with `none` ("return nothing !") as soon as a component required by `tag`
has no payload for the entity. -/
def fetchLoop {α : Type} (m : Manager α) (e : EntityID) (t : Tag) :
    List ComponentID → Option (List (ComponentID × Option α))
  | [] => some []
  | c :: rest =>
    if t.matches (ctag m c) then
      match dataLookup m c e with
      | none => none
      | some d =>
        match fetchLoop m e t rest with
        | none => none
        | some tl => some ((c, some d) :: tl)
    else fetchLoop m e t rest

/-- `func (manager *Manager) fetchComponentsForEntity(entity *Entity, tag Tag)`. -/
def fetchComponentsForEntity {α : Type} (m : Manager α) (e : EntityID) (t : Tag) :
    Option (List (ComponentID × Option α)) :=
  if !((etag m e).matches t) then none
  else fetchLoop m e t m.components

/-- `func (manager Manager) GetEntityByID(id EntityID, tagelements ...interface{}) *QueryResult`. -/
def getEntityByID {α : Type} (m : Manager α) (id : EntityID)
    (tagelements : List BuildElem) : Option (QR α) :=
  if id ∈ m.entitiesByID then
    match fetchComponentsForEntity m id (buildTag m tagelements) with
    | none => none
    | some comps => some ⟨id, comps⟩
  else none

/-- `func (manager *Manager) Query(tag Tag) QueryResultCollection`: full scan
of `manager.entities`; for each matching entity the component map pairs every
registered component included in `tag` with its (possibly missing) payload. -/
def query {α : Type} (m : Manager α) (t : Tag) : List (QR α) :=
  m.entities.filterMap (fun e =>
    if (etag m e).matches t then
      some ⟨e, m.components.filterMap (fun c =>
        if t.matches (ctag m c) then some (c, dataLookup m c e) else none)⟩
    else none)

/-- The EntityIDs of a `Query` result. -/
def queryEIDs {α : Type} (m : Manager α) (t : Tag) : List EntityID :=
  (query m t).map QR.eid

/-- The EntityIDs present in a view's entry list (`nil` entries carry none). -/
def viewEIDsL {α : Type} (l : List (Option (QR α))) : List EntityID :=
  l.filterMap (fun o => o.map QR.eid)

/-- The EntityIDs of `view.Get()`. -/
def viewEIDs {α : Type} (v : ViewState α) : List EntityID :=
  viewEIDsL v.entities

/-- The swap-with-last-and-truncate removal step of `View.remove`. -/
def swapRemove {β : Type} (l : List β) (i : Nat) : List β :=
  match l.getLast? with
  | none => l
  | some last => (l.set i last).dropLast

/-- The linear scan of `View.remove`: index of the first entry whose
`qr.Entity.ID` equals the given ID.  (In Go a `nil` entry would crash the
dereference; here it simply does not match — see the modelling conventions.) -/
def scanIdx {α : Type} (e : EntityID) : List (Option (QR α)) → Option Nat
  | [] => none
  | o :: rest =>
    match o with
    | some qr => if qr.eid == e then some 0 else (scanIdx e rest).map (· + 1)
    | none => (scanIdx e rest).map (· + 1)

/-- `func (v *View) remove(entity *Entity)`: linear scan for the first entry
whose entity has the given ID, then swap-with-last and truncate. -/
def viewRemoveEntities {α : Type} (l : List (Option (QR α))) (e : EntityID) :
    List (Option (QR α)) :=
  match scanIdx e l with
  | none => l
  | some i => swapRemove l i

/-- `func (v *View) add(entity *Entity)`: append the fresh `GetEntityByID`
result (possibly Go `nil`) resolved against the view's own tag. -/
def viewAdd {α : Type} (m : Manager α) (v : ViewState α) (e : EntityID) : ViewState α :=
  { v with entities := v.entities ++ [getEntityByID m e [BuildElem.tagElem v.tag]] }

/-- The state of `AddComponent` after `component.data[entity.ID] = componentdata`
and `entity.tag.binaryORInPlace(component.tag)`, before the view loop.  (The
payload write does not influence which tag values the subsequent reads see, so
the sequential `m1`/`m2` of the source collapse to one record update.) -/
def addCore {α : Type} (m : Manager α) (e : EntityID) (c : ComponentID) (d : α) :
    Manager α :=
  { m with
    compData := dataInsert m c e d
    tags := mapInsert m.tags e ((etag m e).binaryORInPlace (ctag m c)) }

/-- `func (entity *Entity) AddComponent(component *Component, componentdata interface{}) *Entity`:
write the payload, OR the component's bit into the entity's tag, then add the
entity to every view whose signature just became matched. -/
def addComponent {α : Type} (m : Manager α) (e : EntityID) (c : ComponentID) (d : α) :
    Manager α :=
  let tagbefore := etag m e
  let tagafter := tagbefore.binaryORInPlace (ctag m c)
  let m2 := addCore m e c d
  { m2 with
    views := m2.views.map (fun v =>
      if !(tagbefore.matches v.tag) && tagafter.matches v.tag then viewAdd m2 v e else v) }

/-- The guard under which `RemoveComponent` invokes the destructor:
`component.destructor != nil` and a live payload entry exists. -/
def wouldCallDestructor {α : Type} (m : Manager α) (e : EntityID) (c : ComponentID) : Bool :=
  c ∈ m.compDestr && (dataLookup m c e).isSome

/-- `func (component *Component) SetDestructor(...)`. -/
def setDestructor {α : Type} (m : Manager α) (c : ComponentID) : Manager α :=
  { m with compDestr := c :: m.compDestr }

/-- The state of `RemoveComponent` after `delete(component.data, entity.ID)`
and `entity.tag.binaryNOTInPlace(component.tag)`, before the view loop. -/
def removeCore {α : Type} (m : Manager α) (e : EntityID) (c : ComponentID) :
    Manager α :=
  { m with
    compData := dataErase m c e
    tags := mapInsert m.tags e ((etag m e).binaryNOTInPlace (ctag m c)) }

/-- `func (entity *Entity) RemoveComponent(component *Component) *Entity`:
(optionally invoke the destructor — the guard is `wouldCallDestructor`,)
delete the payload, XOR the component's bit out of the entity's tag, then
remove the entity from every view whose signature just became unmatched. -/
def removeComponent {α : Type} (m : Manager α) (e : EntityID) (c : ComponentID) :
    Manager α :=
  let tagbefore := etag m e
  let tagafter := tagbefore.binaryNOTInPlace (ctag m c)
  let m2 := removeCore m e c
  { m2 with
    views := m2.views.map (fun v =>
      if tagbefore.matches v.tag && !(tagafter.matches v.tag) then
        { v with entities := viewRemoveEntities v.entities e }
      else v) }

/-- `func (manager *Manager) NewEntity() *Entity`: the fresh entity ID is
drawn from `componentNumInc` (the same counter as `NewComponent`), with
`uint32` wrap-around kept explicit. -/
def newEntity {α : Type} (m : Manager α) : EntityID × Manager α :=
  let nextid := (m.componentNumInc + 1) % U32
  let id := (nextid + (U32 - 1)) % U32
  (id,
    { m with
      componentNumInc := nextid
      entities := m.entities ++ [id]
      entitiesByID := if id ∈ m.entitiesByID then m.entitiesByID else m.entitiesByID ++ [id]
      tags := mapInsert m.tags id ⟨0, false⟩ })

/-- `func (manager *Manager) NewComponent() *Component`: `none` models the
panic "Component overflow (limited to 64)" taken when `componentNumInc >= 63`. -/
def newComponentChecked {α : Type} (m : Manager α) : Option (ComponentID × Manager α) :=
  if m.componentNumInc ≥ 63 then none
  else
    let nextid := (m.componentNumInc + 1) % U32
    let id := (nextid + (U32 - 1)) % U32
    some (id,
      { m with
        componentNumInc := nextid
        components := m.components ++ [id]
        compTags := mapInsert m.compTags id ⟨1 <<< id, false⟩
        compData := mapInsert m.compData id [] })

/-- `func (manager *Manager) DisposeEntity(entity interface{})` (the `*Entity`
branch of the type switch): detach every registered component the entity
currently has, then delete it from the ID index (`manager.entities` is not
touched). -/
def disposeEntity {α : Type} (m : Manager α) (e : EntityID) : Manager α :=
  let m' := m.components.foldl
    (fun acc c => if hasComponent acc e c then removeComponent acc e c else acc) m
  { m' with entitiesByID := m'.entitiesByID.filter (fun x => x != e) }

/-- `func (manager *Manager) CreateView(tagelements ...interface{}) *View`:
build the (always positive) tag, seed the view from a one-shot `Query`, and
register it. -/
def createView {α : Type} (m : Manager α) (tagelements : List BuildElem) :
    Manager α × ViewState α :=
  let t := buildTag m tagelements
  let v : ViewState α := { tag := t, entities := (query m t).map some }
  ({ m with views := m.views ++ [v] }, v)

/-- The API calls a client can make against one manager, for trace-based
statements. -/
inductive Op (α : Type) where
  | newEntity
  | newComponent
  | addComponent (e : EntityID) (c : ComponentID) (d : α)
  | removeComponent (e : EntityID) (c : ComponentID)
  | disposeEntity (e : EntityID)
  | createView (tagelements : List BuildElem)
  | setDestructor (c : ComponentID)
deriving DecidableEq, Repr

/-- State transition of one API call (total; `validOp` below marks the calls
whose Go counterpart neither panics nor dereferences stale pointers). -/
def execOp {α : Type} (m : Manager α) : Op α → Manager α
  | Op.newEntity => (newEntity m).2
  | Op.newComponent =>
    match newComponentChecked m with
    | none => m
    | some (_, m') => m'
  | Op.addComponent e c d => addComponent m e c d
  | Op.removeComponent e c => removeComponent m e c
  | Op.disposeEntity e => disposeEntity m e
  | Op.createView elems => (createView m elems).1
  | Op.setDestructor c => setDestructor m c

/-- Run a trace of API calls. -/
def execTrace {α : Type} (m : Manager α) (ops : List (Op α)) : Manager α :=
  ops.foldl execOp m

/-- A call is valid when it uses only live entities and registered components
of this manager, removes only components the entity currently holds, and does
not wrap the `uint32` ID counter. -/
def validOp {α : Type} (m : Manager α) : Op α → Bool
  | Op.newEntity => decide (m.componentNumInc + 1 < U32)
  | Op.newComponent => decide (m.componentNumInc < 63)
  | Op.addComponent e c _ => e ∈ m.entitiesByID && c ∈ m.components
  | Op.removeComponent e c =>
    e ∈ m.entitiesByID && c ∈ m.components && hasComponent m e c
  | Op.disposeEntity e => e ∈ m.entitiesByID
  | Op.createView _ => true
  | Op.setDestructor c => c ∈ m.components

/-- Every call of the trace is valid at the state where it runs. -/
def validTrace {α : Type} (m : Manager α) : List (Op α) → Bool
  | [] => true
  | op :: rest => validOp m op && validTrace (execOp m op) rest

/-- The state invariant of a manager reachable through valid API calls: IDs
are fresh and unique, every registered component owns the single bit at its
ID, an entity's signature bit is set exactly when the component holds a live
payload for it, and every registered view with a non-empty (necessarily
positive) signature holds exactly the entities a fresh `Query` on its
signature would return. -/
structure ManagerInv {α : Type} (m : Manager α) : Prop where
  entsNodup : m.entities.Nodup
  byIDsub : ∀ e, e ∈ m.entitiesByID → e ∈ m.entities
  entLt : ∀ e ∈ m.entities, e < m.componentNumInc
  compLt : ∀ c ∈ m.components, c < m.componentNumInc
  compTagWF : ∀ c ∈ m.components, mapLookup m.compTags c = some ⟨1 <<< c, false⟩
  tagBits : ∀ e ∈ m.entities, ∀ k, (etag m e).flags.testBit k = true → k ∈ m.components
  dataInv : ∀ e ∈ m.entities, ∀ c ∈ m.components,
    ((etag m e).flags.testBit c = true ↔ (dataLookup m c e).isSome = true)
  dataLt : ∀ c ∈ m.components, ∀ e, (dataLookup m c e).isSome = true → e < m.componentNumInc
  viewsWF : ∀ v ∈ m.views, v.tag.inverse = false ∧
    (v.tag.flags ≠ 0 →
      (∀ x ∈ v.entities, x.isSome = true) ∧ (viewEIDs v).Perm (queryEIDs m v.tag))

/-- Concrete state for the detach-on-non-holder bug: one component (bit 0),
one entity (ID 1) that never held it, then `RemoveComponent`. -/
def mBug : Manager Nat :=
  execTrace newManager [Op.newComponent, Op.newEntity, Op.removeComponent 1 0]

/-- The same state with a destructor registered before the stray removal. -/
def mBugPre : Manager Nat :=
  execTrace newManager [Op.newComponent, Op.newEntity, Op.setDestructor 0]

/-- `mBugPre` after `RemoveComponent` of the never-held component. -/
def mBugPost : Manager Nat := removeComponent mBugPre 1 0

/-- Concrete state for the disposal counterexample: one entity, disposed. -/
def mDisposed : Manager Nat :=
  execTrace newManager [Op.newEntity, Op.disposeEntity 0]

/-- Concrete state for the inverse-view counterexample: component bit 0, an
entity without it, then a view created on the inverse signature of bit 0. -/
def mInverseView : Manager Nat :=
  execTrace newManager
    [Op.newComponent, Op.newEntity, Op.createView [BuildElem.tagElem ⟨1, true⟩]]

/-- Concrete state for the `GetEntityByID` counterexample: entity 1 holds
component 0 with payload 7. -/
def mHeld : Manager Nat :=
  execTrace newManager [Op.newComponent, Op.newEntity, Op.addComponent 1 0 7]

/-- Trace used by the view-consistency witness. -/
def opsViewWitness : List (Op Nat) :=
  [Op.newComponent, Op.newEntity, Op.createView [BuildElem.compElem 0],
   Op.addComponent 1 0 7]

/-- Final state of the view-consistency witness trace. -/
def mViewWitness : Manager Nat := execTrace newManager opsViewWitness

/-- The 63-component state: the most `NewComponent` calls a fresh manager
survives. -/
def m63 : Manager Nat := execTrace newManager (List.replicate 63 Op.newComponent)

/-- Trace used by the disposal witness: create an entity, a view on
component 0, give the entity the component, then dispose it. -/
def opsDisposeWitness : List (Op Nat) :=
  [Op.newComponent, Op.newEntity, Op.createView [BuildElem.compElem 0],
   Op.addComponent 1 0 4]

/-- Final state of the disposal witness trace. -/
def mDisposeWitness : Manager Nat :=
  execTrace newManager (opsDisposeWitness ++ Op.disposeEntity 1 :: [])

theorem mapLookup_insert_self {β : Type} (l : List (Nat × β)) (k : Nat) (v : β) :
    mapLookup (mapInsert l k v) k = some v := by
  induction l with
  | nil => simp [mapInsert, mapLookup]
  | cons hd tl ih =>
    obtain ⟨k', v'⟩ := hd
    by_cases h : k' = k <;> simp [mapInsert, mapLookup, h, ih]

theorem mapLookup_insert_ne {β : Type} (l : List (Nat × β)) (k k' : Nat) (v : β)
    (h : k' ≠ k) : mapLookup (mapInsert l k v) k' = mapLookup l k' := by
  induction l with
  | nil => simp [mapInsert, mapLookup, Ne.symm h]
  | cons hd tl ih =>
    obtain ⟨k'', v''⟩ := hd
    by_cases h2 : k'' = k
    · subst h2
      simp [mapInsert, mapLookup, Ne.symm h]
    · by_cases h3 : k'' = k' <;> simp [mapInsert, mapLookup, h2, h3, ih, h]

theorem mapLookup_erase_self {β : Type} (l : List (Nat × β)) (k : Nat) :
    mapLookup (mapErase l k) k = none := by
  induction l with
  | nil => simp [mapErase, mapLookup]
  | cons hd tl ih =>
    obtain ⟨k', v'⟩ := hd
    by_cases h : k' = k <;> simp [mapErase, mapLookup, h, ih]

theorem mapLookup_erase_ne {β : Type} (l : List (Nat × β)) (k k' : Nat) (h : k' ≠ k) :
    mapLookup (mapErase l k) k' = mapLookup l k' := by
  induction l with
  | nil => simp [mapErase]
  | cons hd tl ih =>
    obtain ⟨k'', v''⟩ := hd
    by_cases h2 : k'' = k
    · subst h2
      simp [mapErase, mapLookup, Ne.symm h, ih]
    · by_cases h3 : k'' = k' <;> simp [mapErase, mapLookup, h2, h3, ih, h]

theorem land_eq_right_iff (a b : Nat) :
    a &&& b = b ↔ ∀ i, b.testBit i = true → a.testBit i = true := by
  constructor
  · intro h i hb
    have h2 := congrArg (fun x => Nat.testBit x i) h
    simp only [Nat.testBit_and, hb, Bool.and_true] at h2
    exact h2
  · intro h
    apply Nat.eq_of_testBit_eq
    intro i
    rw [Nat.testBit_and]
    cases hb : b.testBit i
    · simp
    · simp [h i hb]

/-- `matches` against a positive required tag is exactly bit containment. -/
theorem matches_positive_iff (candidate required : Tag) (h : required.inverse = false) :
    (candidate.matches required = true ↔
      ∀ i, required.flags.testBit i = true → candidate.flags.testBit i = true) := by
  simp only [Tag.matches, h, Bool.false_eq_true, if_false, beq_iff_eq]
  exact land_eq_right_iff candidate.flags required.flags

/-- `matches` against an inverse required tag is the boolean negation of the
positive containment test. -/
theorem matches_inverse_iff (candidate required : Tag) (h : required.inverse = true) :
    (candidate.matches required = true ↔
      ¬ ∀ i, required.flags.testBit i = true → candidate.flags.testBit i = true) := by
  simp only [Tag.matches, h, if_true, Bool.not_eq_true', beq_eq_false_iff_ne, ne_eq]
  exact not_congr (land_eq_right_iff candidate.flags required.flags)

/-- Unfold of a positive `matches` to the raw containment equation. -/
theorem matches_positive_eq (candidate required : Tag) (h : required.inverse = false) :
    candidate.matches required = (candidate.flags &&& required.flags == required.flags) := by
  simp [Tag.matches, h]

/-- Containment is monotone under OR on the candidate side. -/
theorem land_mono_or (a x f : Nat) (h : a &&& f = f) : (a ||| x) &&& f = f := by
  rw [land_eq_right_iff] at h ⊢
  intro i hf
  rw [Nat.testBit_or, h i hf]
  simp

/-- A positive match survives ORing more bits into the candidate. -/
theorem matches_mono_or (t other required : Tag) (h : required.inverse = false)
    (hm : t.matches required = true) :
    (t.binaryORInPlace other).matches required = true := by
  rw [matches_positive_eq _ _ h] at hm ⊢
  rw [Tag.binaryORInPlace]
  rw [beq_iff_eq] at hm ⊢
  exact land_mono_or _ _ _ hm

/-- Single-bit XOR with the bit set clears exactly that bit. -/
theorem xor_two_pow_testBit (a c k : Nat) (h : a.testBit c = true) :
    (a ^^^ 1 <<< c).testBit k = (a.testBit k && !(k == c)) := by
  rw [Nat.one_shiftLeft, Nat.testBit_xor]
  by_cases hk : k = c
  · subst hk
    simp [Nat.testBit_two_pow_self, h]
  · simp [Nat.testBit_two_pow_of_ne (Ne.symm hk), hk]

/-- Single-bit OR sets exactly that bit. -/
theorem or_two_pow_testBit (a c k : Nat) :
    (a ||| 1 <<< c).testBit k = (a.testBit k || k == c) := by
  rw [Nat.one_shiftLeft, Nat.testBit_or]
  by_cases hk : k = c
  · subst hk
    simp [Nat.testBit_two_pow_self]
  · simp [Nat.testBit_two_pow_of_ne (Ne.symm hk), hk]

/-- Restoring a cleared bit with OR undoes the XOR of `binaryNOTInPlace`. -/
theorem xor_or_cancel (a c : Nat) (h : a.testBit c = true) :
    (a ^^^ 1 <<< c) ||| 1 <<< c = a := by
  apply Nat.eq_of_testBit_eq
  intro k
  rw [or_two_pow_testBit, xor_two_pow_testBit a c k h]
  by_cases hk : k = c
  · subst hk
    simp [h]
  · simp [beq_eq_false_iff_ne.mpr hk]

/-- `binaryORInPlace` keeps the receiver's inverse marker. -/
theorem binaryORInPlace_inverse (t other : Tag) :
    (t.binaryORInPlace other).inverse = t.inverse := rfl

/-- `BuildTag` always returns a tag whose inverse marker is cleared. -/
theorem buildTag_inverse {α : Type} (m : Manager α) (elements : List BuildElem) :
    (buildTag m elements).inverse = false := by
  suffices h : ∀ (l : List BuildElem) (init : Tag),
      (l.foldl (fun tag e =>
        match e with
        | BuildElem.tagElem t => tag.binaryORInPlace t
        | BuildElem.compElem c => tag.binaryORInPlace (ctag m c)) init).inverse = init.inverse by
    exact h elements ⟨0, false⟩
  intro l
  induction l with
  | nil => intro init; rfl
  | cons hd tl ih =>
    intro init
    cases hd <;> simp [List.foldl_cons, ih, binaryORInPlace_inverse]

/-- `BuildTag` of a single tag element keeps the flags and clears the
inverse marker. -/
theorem buildTag_single {α : Type} (m : Manager α) (t : Tag) :
    buildTag m [BuildElem.tagElem t] = ⟨t.flags, false⟩ := by
  simp [buildTag, Tag.binaryORInPlace]


theorem etag_addCore_self {α : Type} (m : Manager α) (e : EntityID) (c : ComponentID)
    (d : α) : etag (addCore m e c d) e = (etag m e).binaryORInPlace (ctag m c) := by
  simp [etag, addCore, mapLookup_insert_self]

theorem etag_addCore_ne {α : Type} (m : Manager α) (e x : EntityID) (c : ComponentID)
    (d : α) (h : x ≠ e) : etag (addCore m e c d) x = etag m x := by
  simp [etag, addCore, mapLookup_insert_ne _ _ _ _ h]

theorem etag_removeCore_self {α : Type} (m : Manager α) (e : EntityID) (c : ComponentID) :
    etag (removeCore m e c) e = (etag m e).binaryNOTInPlace (ctag m c) := by
  simp [etag, removeCore, mapLookup_insert_self]

theorem etag_removeCore_ne {α : Type} (m : Manager α) (e x : EntityID) (c : ComponentID)
    (h : x ≠ e) : etag (removeCore m e c) x = etag m x := by
  simp [etag, removeCore, mapLookup_insert_ne _ _ _ _ h]

theorem dataLookup_addCore_self {α : Type} (m : Manager α) (e : EntityID)
    (c : ComponentID) (d : α) : dataLookup (addCore m e c d) c e = some d := by
  simp [dataLookup, addCore, dataInsert, mapLookup_insert_self, mapLookup_insert_self]

theorem dataLookup_addCore_necomp {α : Type} (m : Manager α) (e x : EntityID)
    (c c' : ComponentID) (d : α) (h : c' ≠ c) :
    dataLookup (addCore m e c d) c' x = dataLookup m c' x := by
  simp [dataLookup, addCore, dataInsert, mapLookup_insert_ne _ _ _ _ h]

theorem dataLookup_addCore_nee {α : Type} (m : Manager α) (e x : EntityID)
    (c : ComponentID) (d : α) (h : x ≠ e) :
    dataLookup (addCore m e c d) c x = dataLookup m c x := by
  simp [dataLookup, addCore, dataInsert, mapLookup_insert_self,
    mapLookup_insert_ne _ _ _ _ h]

theorem dataLookup_removeCore_self {α : Type} (m : Manager α) (e : EntityID)
    (c : ComponentID) : dataLookup (removeCore m e c) c e = none := by
  simp [dataLookup, removeCore, dataErase, mapLookup_insert_self, mapLookup_erase_self]

theorem dataLookup_removeCore_necomp {α : Type} (m : Manager α) (e x : EntityID)
    (c c' : ComponentID) (h : c' ≠ c) :
    dataLookup (removeCore m e c) c' x = dataLookup m c' x := by
  simp [dataLookup, removeCore, dataErase, mapLookup_insert_ne _ _ _ _ h]

theorem dataLookup_removeCore_nee {α : Type} (m : Manager α) (e x : EntityID)
    (c : ComponentID) (h : x ≠ e) :
    dataLookup (removeCore m e c) c x = dataLookup m c x := by
  simp [dataLookup, removeCore, dataErase, mapLookup_insert_self,
    mapLookup_erase_ne _ _ _ h]

theorem addComponent_core_fields {α : Type} (m : Manager α) (e : EntityID)
    (c : ComponentID) (d : α) :
    (addComponent m e c d).entities = m.entities ∧
    (addComponent m e c d).entitiesByID = m.entitiesByID ∧
    (addComponent m e c d).components = m.components ∧
    (addComponent m e c d).compTags = m.compTags ∧
    (addComponent m e c d).componentNumInc = m.componentNumInc ∧
    (addComponent m e c d).tags = (addCore m e c d).tags ∧
    (addComponent m e c d).compData = (addCore m e c d).compData :=
  ⟨rfl, rfl, rfl, rfl, rfl, rfl, rfl⟩

theorem addComponent_views {α : Type} (m : Manager α) (e : EntityID) (c : ComponentID)
    (d : α) :
    (addComponent m e c d).views = m.views.map (fun v =>
      if !((etag m e).matches v.tag) &&
          ((etag m e).binaryORInPlace (ctag m c)).matches v.tag then
        viewAdd (addCore m e c d) v e
      else v) := rfl

theorem etag_addComponent {α : Type} (m : Manager α) (e x : EntityID) (c : ComponentID)
    (d : α) : etag (addComponent m e c d) x = etag (addCore m e c d) x := rfl

theorem dataLookup_addComponent {α : Type} (m : Manager α) (x : EntityID)
    (e : EntityID) (c c' : ComponentID) (d : α) :
    dataLookup (addComponent m e c d) c' x = dataLookup (addCore m e c d) c' x := rfl

theorem removeComponent_core_fields {α : Type} (m : Manager α) (e : EntityID)
    (c : ComponentID) :
    (removeComponent m e c).entities = m.entities ∧
    (removeComponent m e c).entitiesByID = m.entitiesByID ∧
    (removeComponent m e c).components = m.components ∧
    (removeComponent m e c).compTags = m.compTags ∧
    (removeComponent m e c).componentNumInc = m.componentNumInc ∧
    (removeComponent m e c).tags = (removeCore m e c).tags ∧
    (removeComponent m e c).compData = (removeCore m e c).compData :=
  ⟨rfl, rfl, rfl, rfl, rfl, rfl, rfl⟩

theorem removeComponent_views {α : Type} (m : Manager α) (e : EntityID)
    (c : ComponentID) :
    (removeComponent m e c).views = m.views.map (fun v =>
      if (etag m e).matches v.tag &&
          !(((etag m e).binaryNOTInPlace (ctag m c)).matches v.tag) then
        { v with entities := viewRemoveEntities v.entities e }
      else v) := rfl

theorem etag_removeComponent {α : Type} (m : Manager α) (e x : EntityID)
    (c : ComponentID) : etag (removeComponent m e c) x = etag (removeCore m e c) x := rfl

theorem dataLookup_removeComponent {α : Type} (m : Manager α) (x : EntityID)
    (e : EntityID) (c c' : ComponentID) :
    dataLookup (removeComponent m e c) c' x = dataLookup (removeCore m e c) c' x := rfl

theorem newEntity_eq {α : Type} (m : Manager α) (h : m.componentNumInc + 1 < U32) :
    newEntity m = (m.componentNumInc,
      { m with
        componentNumInc := m.componentNumInc + 1
        entities := m.entities ++ [m.componentNumInc]
        entitiesByID :=
          if m.componentNumInc ∈ m.entitiesByID then m.entitiesByID
          else m.entitiesByID ++ [m.componentNumInc]
        tags := mapInsert m.tags m.componentNumInc ⟨0, false⟩ }) := by
  have h1 : (m.componentNumInc + 1) % U32 = m.componentNumInc + 1 := Nat.mod_eq_of_lt h
  have h2 : (m.componentNumInc + 1 + (U32 - 1)) % U32 = m.componentNumInc := by
    have hU : 1 ≤ U32 := by norm_num [U32]
    have : m.componentNumInc + 1 + (U32 - 1) = m.componentNumInc + U32 := by omega
    rw [this, Nat.add_mod_right]
    exact Nat.mod_eq_of_lt (by omega)
  simp [newEntity, h1, h2]

theorem newComponentChecked_eq {α : Type} (m : Manager α) (h : m.componentNumInc < 63) :
    newComponentChecked m = some (m.componentNumInc,
      { m with
        componentNumInc := m.componentNumInc + 1
        components := m.components ++ [m.componentNumInc]
        compTags := mapInsert m.compTags m.componentNumInc ⟨1 <<< m.componentNumInc, false⟩
        compData := mapInsert m.compData m.componentNumInc [] }) := by
  have hlt : m.componentNumInc + 1 < U32 := by
    have : (63 : Nat) < U32 := by norm_num [U32]
    omega
  have h1 : (m.componentNumInc + 1) % U32 = m.componentNumInc + 1 := Nat.mod_eq_of_lt hlt
  have h2 : (m.componentNumInc + 1 + (U32 - 1)) % U32 = m.componentNumInc := by
    have : m.componentNumInc + 1 + (U32 - 1) = m.componentNumInc + U32 := by
      have hU : 1 ≤ U32 := by norm_num [U32]
      omega
    rw [this, Nat.add_mod_right]
    exact Nat.mod_eq_of_lt (by omega)
  rw [newComponentChecked, if_neg (by omega)]
  simp [h1, h2]

theorem createView_fst {α : Type} (m : Manager α) (elems : List BuildElem) :
    (createView m elems).1 = { m with views := m.views ++ [(createView m elems).2] } := rfl

theorem createView_snd {α : Type} (m : Manager α) (elems : List BuildElem) :
    (createView m elems).2 =
      ⟨buildTag m elems, (query m (buildTag m elems)).map some⟩ := rfl


theorem filterMap_guard_map_eid {α : Type} (p : EntityID → Bool)
    (f : EntityID → QR α) (hf : ∀ e, (f e).eid = e) :
    ∀ l : List EntityID,
      ((l.filterMap (fun e => if p e then some (f e) else none)).map QR.eid) = l.filter p := by
  intro l
  induction l with
  | nil => rfl
  | cons hd tl ih =>
    by_cases h : p hd <;> simp [List.filterMap_cons, List.filter_cons, h, ih, hf]

/-- The EntityIDs of `Query` are the entity list filtered by the match test. -/
theorem queryEIDs_eq_filter {α : Type} (m : Manager α) (t : Tag) :
    queryEIDs m t = m.entities.filter (fun e => (etag m e).matches t) := by
  unfold queryEIDs query
  exact filterMap_guard_map_eid _ _ (fun e => rfl) m.entities

/-- Two managers with the same entity list and entity tags produce the same
`Query` EntityIDs. -/
theorem queryEIDs_ext {α : Type} (m m' : Manager α) (t : Tag)
    (hents : m'.entities = m.entities)
    (htags : ∀ e, e ∈ m.entities → etag m' e = etag m e) :
    queryEIDs m' t = queryEIDs m t := by
  rw [queryEIDs_eq_filter, queryEIDs_eq_filter, hents]
  apply List.filter_congr
  intro e he
  rw [htags e he]

theorem viewEIDsL_append {α : Type} (l l' : List (Option (QR α))) :
    viewEIDsL (l ++ l') = viewEIDsL l ++ viewEIDsL l' := by
  simp [viewEIDsL]

theorem viewEIDsL_some_singleton {α : Type} (qr : QR α) :
    viewEIDsL [some qr] = [qr.eid] := rfl

theorem viewEIDsL_map_some {α : Type} (l : List (QR α)) :
    viewEIDsL (l.map some) = l.map QR.eid := by
  induction l with
  | nil => rfl
  | cons hd tl ih => simp [viewEIDsL, List.filterMap_cons, ih]

/-- Flipping one list element out of (or into) a filter, as a permutation:
if `p` holds at `e` but `p'` does not, and they agree elsewhere, the `p`-filter
is a permutation of `e` consed onto the `p'`-filter. -/
theorem filter_cons_perm (l : List EntityID) (e : EntityID) (p p' : EntityID → Bool)
    (hnd : l.Nodup) (hmem : e ∈ l) (hp : p e = true) (hp' : p' e = false)
    (hagree : ∀ x ∈ l, x ≠ e → p x = p' x) :
    (l.filter p).Perm (e :: l.filter p') := by
  induction l with
  | nil => cases hmem
  | cons hd tl ih =>
    rcases List.mem_cons.mp hmem with heq | htl
    · subst heq
      have hne : e ∉ tl := (List.nodup_cons.mp hnd).1
      have hsame : tl.filter p = tl.filter p' := by
        apply List.filter_congr
        intro x hx
        exact hagree x (List.mem_cons_of_mem _ hx) (fun hxe => hne (hxe ▸ hx))
      simp [List.filter_cons, hp, hp', hsame]
    · have hnd' : tl.Nodup := (List.nodup_cons.mp hnd).2
      have hne : hd ≠ e := fun h => (List.nodup_cons.mp hnd).1 (h ▸ htl)
      have hagree' : ∀ x ∈ tl, x ≠ e → p x = p' x := fun x hx =>
        hagree x (List.mem_cons_of_mem _ hx)
      have hperm := ih hnd' htl hagree'
      by_cases hphd : p hd = true
      · have hp't : p' hd = true := by
          rw [← hagree hd (List.mem_cons_self _ _) hne]
          exact hphd
        simp only [List.filter_cons, hphd, hp't, if_true]
        exact (hperm.cons hd).trans (List.Perm.swap e hd _)
      · have hpf : p hd = false := by simpa using hphd
        have hp'f : p' hd = false := by
          rw [← hagree hd (List.mem_cons_self _ _) hne]
          exact hpf
        simp only [List.filter_cons, hpf, hp'f, Bool.false_eq_true, if_false]
        exact hperm

theorem dropLast_cons_ne {β : Type} (a : β) (l : List β) (h : l ≠ []) :
    (a :: l).dropLast = a :: l.dropLast := by
  cases l with
  | nil => exact absurd rfl h
  | cons b tl => rfl

theorem swapRemove_eq {β : Type} (l : List β) (i : Nat) (last : β)
    (h : l.getLast? = some last) : swapRemove l i = (l.set i last).dropLast := by
  rw [swapRemove, h]

theorem swapRemove_perm {β : Type} :
    ∀ (l : List β) (i : Nat), i < l.length → (swapRemove l i).Perm (l.eraseIdx i) := by
  intro l
  induction l with
  | nil => intro i h; cases h
  | cons a tl ih =>
    intro i hi
    cases tl with
    | nil =>
      have h0 : i = 0 := Nat.lt_one_iff.mp (by simpa using hi)
      subst h0
      simp [swapRemove]
    | cons b tl' =>
      have hne : (b :: tl' : List β) ≠ [] := by simp
      have hlast : (a :: b :: tl').getLast? = some ((b :: tl').getLast hne) := by
        rw [show (a :: b :: tl').getLast? = (b :: tl').getLast? by simp [List.getLast?]]
        exact List.getLast?_eq_getLast _ hne
      cases i with
      | zero =>
        rw [swapRemove_eq _ _ _ hlast]
        simp only [List.set_cons_zero, List.eraseIdx_cons_zero]
        rw [dropLast_cons_ne _ _ hne]
        calc ((b :: tl').getLast hne :: (b :: tl').dropLast).Perm
              ((b :: tl').dropLast ++ [(b :: tl').getLast hne]) := by
                simpa using
                  (@List.perm_append_comm β [(b :: tl').getLast hne]
                    ((b :: tl').dropLast))
          _ = b :: tl' := List.dropLast_append_getLast hne
      | succ j =>
        have hj : j < (b :: tl').length := by
          simpa using Nat.lt_of_succ_lt_succ hi
        have hset : ((b :: tl').set j ((b :: tl').getLast hne) : List β) ≠ [] := by
          intro hcontra
          have := congrArg List.length hcontra
          simp at this
        rw [swapRemove_eq _ _ _ hlast]
        rw [List.set_cons_succ, dropLast_cons_ne _ _ hset, List.eraseIdx_cons_succ]
        have hrec : swapRemove (b :: tl') j =
            ((b :: tl').set j ((b :: tl').getLast hne)).dropLast :=
          swapRemove_eq _ _ _ (List.getLast?_eq_getLast _ hne)
        exact ((hrec ▸ ih j hj).cons a)

theorem scanIdx_lt_length {α : Type} (e : EntityID) :
    ∀ (l : List (Option (QR α))) (i : Nat), scanIdx e l = some i → i < l.length := by
  intro l
  induction l with
  | nil => intro i h; cases h
  | cons o rest ih =>
    intro i h
    cases o with
    | some qr =>
      rw [scanIdx] at h
      by_cases hq : qr.eid == e
      · rw [if_pos hq] at h
        cases h
        simp
      · rw [if_neg hq] at h
        obtain ⟨j, hj, rfl⟩ := Option.map_eq_some'.mp h
        simpa using Nat.succ_lt_succ (ih j hj)
    | none =>
      rw [scanIdx] at h
      obtain ⟨j, hj, rfl⟩ := Option.map_eq_some'.mp h
      simpa using Nat.succ_lt_succ (ih j hj)

theorem scanIdx_isSome_of_mem {α : Type} (e : EntityID) :
    ∀ (l : List (Option (QR α))), (∀ x ∈ l, x.isSome = true) → e ∈ viewEIDsL l →
      ∃ i, scanIdx e l = some i := by
  intro l
  induction l with
  | nil => intro _ hmem; simp [viewEIDsL] at hmem
  | cons o rest ih =>
    intro hall hmem
    cases o with
    | some qr =>
      by_cases hq : qr.eid == e
      · exact ⟨0, by rw [scanIdx, if_pos hq]⟩
      · have hmem' : e ∈ viewEIDsL rest := by
          have : viewEIDsL (some qr :: rest) = qr.eid :: viewEIDsL rest := by
            simp [viewEIDsL, List.filterMap_cons]
          rw [this] at hmem
          rcases List.mem_cons.mp hmem with heq | h
          · exact absurd (by simp [heq]) hq
          · exact h
        obtain ⟨j, hj⟩ := ih (fun x hx => hall x (List.mem_cons_of_mem _ hx)) hmem'
        exact ⟨j + 1, by rw [scanIdx, if_neg hq, hj]; rfl⟩
    | none =>
      have := hall none (List.mem_cons_self _ _)
      simp at this

theorem viewEIDsL_eraseIdx_scanIdx {α : Type} (e : EntityID) :
    ∀ (l : List (Option (QR α))) (i : Nat), (∀ x ∈ l, x.isSome = true) →
      scanIdx e l = some i → viewEIDsL (l.eraseIdx i) = (viewEIDsL l).erase e := by
  intro l
  induction l with
  | nil => intro i _ h; cases h
  | cons o rest ih =>
    intro i hall h
    cases o with
    | some qr =>
      have hcons : viewEIDsL (some qr :: rest) = qr.eid :: viewEIDsL rest := by
        simp [viewEIDsL, List.filterMap_cons]
      by_cases hq : qr.eid == e
      · rw [scanIdx, if_pos hq] at h
        cases h
        have he : qr.eid = e := by simpa using hq
        rw [List.eraseIdx_cons_zero, hcons, he, List.erase_cons_head]
      · rw [scanIdx, if_neg hq] at h
        obtain ⟨j, hj, rfl⟩ := Option.map_eq_some'.mp h
        have hne : qr.eid ≠ e := by simpa using hq
        rw [List.eraseIdx_cons_succ, hcons]
        have hcons2 : viewEIDsL (some qr :: rest.eraseIdx j) = qr.eid :: viewEIDsL (rest.eraseIdx j) := by
          simp [viewEIDsL, List.filterMap_cons]
        rw [hcons2, ih j (fun x hx => hall x (List.mem_cons_of_mem _ hx)) hj]
        rw [List.erase_cons_tail]
        simp [hne]
    | none =>
      have := hall none (List.mem_cons_self _ _)
      simp at this

/-- `View.remove` deletes exactly one occurrence of the entity from the view's
EntityID multiset, provided the view holds no `nil` entry. -/
theorem viewEIDsL_viewRemove {α : Type} (l : List (Option (QR α))) (e : EntityID)
    (hall : ∀ x ∈ l, x.isSome = true) (hmem : e ∈ viewEIDsL l) :
    (viewEIDsL (viewRemoveEntities l e)).Perm ((viewEIDsL l).erase e) := by
  obtain ⟨i, hi⟩ := scanIdx_isSome_of_mem e l hall hmem
  rw [viewRemoveEntities, hi]
  have hlen : i < l.length := scanIdx_lt_length e l i hi
  calc (viewEIDsL (swapRemove l i)).Perm (viewEIDsL (l.eraseIdx i)) :=
        (swapRemove_perm l i hlen).filterMap _
    _ = (viewEIDsL l).erase e := viewEIDsL_eraseIdx_scanIdx e l i hall hi

/-- `View.remove` never introduces entries. -/
theorem viewRemove_subset {α : Type} (l : List (Option (QR α))) (e : EntityID) :
    ∀ x ∈ viewRemoveEntities l e, x ∈ l := by
  intro x hx
  rw [viewRemoveEntities] at hx
  cases hi : scanIdx e l with
  | none => rw [hi] at hx; exact hx
  | some i =>
    rw [hi] at hx
    have hlen : i < l.length := scanIdx_lt_length e l i hi
    have := ((swapRemove_perm l i hlen).mem_iff).mp hx
    exact List.mem_of_mem_eraseIdx this


theorem fetchLoop_isSome {α : Type} (m : Manager α) (e : EntityID) (t : Tag) :
    ∀ comps : List ComponentID,
      (∀ c ∈ comps, t.matches (ctag m c) = true → (dataLookup m c e).isSome = true) →
      ∃ res, fetchLoop m e t comps = some res := by
  intro comps
  induction comps with
  | nil => intro _; exact ⟨[], rfl⟩
  | cons c rest ih =>
    intro h
    obtain ⟨tl, htl⟩ := ih (fun c' hc' => h c' (List.mem_cons_of_mem _ hc'))
    by_cases hc : t.matches (ctag m c) = true
    · obtain ⟨d, hd⟩ :=
        Option.isSome_iff_exists.mp (h c (List.mem_cons_self _ _) hc)
      refine ⟨(c, some d) :: tl, ?_⟩
      rw [fetchLoop, if_pos hc, hd, htl]
    · refine ⟨tl, ?_⟩
      rw [fetchLoop, if_neg hc]
      exact htl

theorem getEntityByID_some {α : Type} (m : Manager α) (id : EntityID)
    (elems : List BuildElem) (hid : id ∈ m.entitiesByID)
    (hmatch : (etag m id).matches (buildTag m elems) = true)
    (hdata : ∀ c ∈ m.components,
      (buildTag m elems).matches (ctag m c) = true → (dataLookup m c id).isSome = true) :
    ∃ qr, getEntityByID m id elems = some qr ∧ qr.eid = id := by
  obtain ⟨res, hres⟩ := fetchLoop_isSome m id (buildTag m elems) m.components hdata
  refine ⟨⟨id, res⟩, ?_, rfl⟩
  rw [getEntityByID, if_pos hid, fetchComponentsForEntity, if_neg (by simp [hmatch]), hres]

theorem land_two_pow_eq_iff (a c : Nat) :
    a &&& 1 <<< c = 1 <<< c ↔ a.testBit c = true := by
  rw [land_eq_right_iff]
  constructor
  · intro h
    exact h c (by rw [Nat.one_shiftLeft]; exact @Nat.testBit_two_pow_self c)
  · intro h i hi
    rw [Nat.one_shiftLeft] at hi
    by_cases hic : i = c
    · subst hic; exact h
    · rw [Nat.testBit_two_pow_of_ne (fun hce => hic hce.symm)] at hi
      cases hi

/-- `HasComponent` against a registered component is the signature bit test. -/
theorem hasComponent_eq_testBit {α : Type} (m : Manager α) (e : EntityID)
    (c : ComponentID) (hct : mapLookup m.compTags c = some ⟨1 <<< c, false⟩) :
    hasComponent m e c = (etag m e).flags.testBit c := by
  rw [hasComponent, ctag, hct]
  simp only [Option.getD_some]
  rw [matches_positive_eq _ _ rfl]
  cases htb : (etag m e).flags.testBit c with
  | false =>
    apply beq_eq_false_iff_ne.mpr
    intro hcontra
    rw [(land_two_pow_eq_iff _ _).mp hcontra] at htb
    cases htb
  | true => exact beq_iff_eq.mpr ((land_two_pow_eq_iff _ _).mpr htb)

/-- The zero tag never positively matches a non-empty required signature. -/
theorem matches_zero_flags (t : Tag) (hinv : t.inverse = false) (hf : t.flags ≠ 0) :
    Tag.matches ⟨0, false⟩ t = false := by
  rw [matches_positive_eq _ _ hinv]
  apply beq_eq_false_iff_ne.mpr
  rw [Nat.zero_and]
  exact fun h => hf h.symm

theorem inv_newManager {α : Type} : ManagerInv (newManager : Manager α) := by
  constructor <;> simp [newManager]

theorem etag_of_tags_eq {α : Type} (m' m : Manager α) (h : m'.tags = m.tags)
    (x : EntityID) : etag m' x = etag m x := by
  rw [etag, etag, h]

theorem etag_of_tags_insert_self {α : Type} (m' m : Manager α) (n : EntityID) (t : Tag)
    (h : m'.tags = mapInsert m.tags n t) : etag m' n = t := by
  rw [etag, h, mapLookup_insert_self]
  rfl

theorem etag_of_tags_insert_ne {α : Type} (m' m : Manager α) (n : EntityID) (t : Tag)
    (h : m'.tags = mapInsert m.tags n t) (x : EntityID) (hx : x ≠ n) :
    etag m' x = etag m x := by
  rw [etag, h, mapLookup_insert_ne _ _ _ _ hx, etag]

theorem dataLookup_of_compData_eq {α : Type} (m' m : Manager α)
    (h : m'.compData = m.compData) (c : ComponentID) (e : EntityID) :
    dataLookup m' c e = dataLookup m c e := by
  rw [dataLookup, dataLookup, h]

theorem ctag_of_compTags_eq {α : Type} (m' m : Manager α) (h : m'.compTags = m.compTags)
    (c : ComponentID) : ctag m' c = ctag m c := by
  rw [ctag, ctag, h]

theorem inv_newEntity_aux {α : Type} (m m' : Manager α) (hinv : ManagerInv m)
    (hinc : m'.componentNumInc = m.componentNumInc + 1)
    (hents : m'.entities = m.entities ++ [m.componentNumInc])
    (hbyid : m'.entitiesByID = m.entitiesByID ++ [m.componentNumInc])
    (htags : m'.tags = mapInsert m.tags m.componentNumInc ⟨0, false⟩)
    (hcomps : m'.components = m.components)
    (hctags : m'.compTags = m.compTags)
    (hdata : m'.compData = m.compData)
    (hviews : m'.views = m.views) : ManagerInv m' := by
  have hn_ent : m.componentNumInc ∉ m.entities :=
    fun hmem => absurd (hinv.entLt _ hmem) (lt_irrefl _)
  have hetag_self : etag m' m.componentNumInc = ⟨0, false⟩ :=
    etag_of_tags_insert_self m' m _ _ htags
  have hetag_ne : ∀ x, x ≠ m.componentNumInc → etag m' x = etag m x :=
    etag_of_tags_insert_ne m' m _ _ htags
  have hdl : ∀ c e, dataLookup m' c e = dataLookup m c e :=
    fun c e => dataLookup_of_compData_eq m' m hdata c e
  constructor
  · -- entsNodup
    rw [hents]
    simp only [List.nodup_append, List.nodup_cons, List.not_mem_nil, not_false_iff,
      List.nodup_nil, and_true, true_and]
    exact ⟨hinv.entsNodup, fun x hx hx1 => by
      simp only [List.mem_singleton] at hx1
      exact hn_ent (hx1 ▸ hx)⟩
  · -- byIDsub
    intro e he
    rw [hbyid] at he
    rw [hents]
    rcases List.mem_append.mp he with h1 | h1
    · exact List.mem_append.mpr (Or.inl (hinv.byIDsub e h1))
    · exact List.mem_append.mpr (Or.inr h1)
  · -- entLt
    intro e he
    rw [hents] at he
    rw [hinc]
    rcases List.mem_append.mp he with h1 | h1
    · exact Nat.lt_succ_of_lt (hinv.entLt e h1)
    · simp only [List.mem_singleton] at h1
      exact h1 ▸ Nat.lt_succ_self _
  · -- compLt
    intro c hc
    rw [hcomps] at hc
    rw [hinc]
    exact Nat.lt_succ_of_lt (hinv.compLt c hc)
  · -- compTagWF
    intro c hc
    rw [hcomps] at hc
    rw [hctags]
    exact hinv.compTagWF c hc
  · -- tagBits
    intro e he k hk
    rw [hents] at he
    rw [hcomps]
    rcases List.mem_append.mp he with h1 | h1
    · have hne : e ≠ m.componentNumInc := fun heq => hn_ent (heq ▸ h1)
      rw [hetag_ne e hne] at hk
      exact hinv.tagBits e h1 k hk
    · simp only [List.mem_singleton] at h1
      rw [h1, hetag_self, Nat.zero_testBit] at hk
      cases hk
  · -- dataInv
    intro e he c hc
    rw [hents] at he
    rw [hcomps] at hc
    rw [hdl]
    rcases List.mem_append.mp he with h1 | h1
    · have hne : e ≠ m.componentNumInc := fun heq => hn_ent (heq ▸ h1)
      rw [hetag_ne e hne]
      exact hinv.dataInv e h1 c hc
    · simp only [List.mem_singleton] at h1
      rw [h1, hetag_self]
      simp only [Nat.zero_testBit, Bool.false_eq_true, false_iff]
      intro hcontra
      exact absurd (hinv.dataLt c hc _ hcontra) (lt_irrefl _)
  · -- dataLt
    intro c hc e he
    rw [hcomps] at hc
    rw [hdl] at he
    rw [hinc]
    exact Nat.lt_succ_of_lt (hinv.dataLt c hc e he)
  · -- viewsWF
    intro v hv
    rw [hviews] at hv
    refine ⟨(hinv.viewsWF v hv).1, fun hf => ?_⟩
    obtain ⟨hall, hperm⟩ := (hinv.viewsWF v hv).2 hf
    refine ⟨hall, ?_⟩
    have hq : queryEIDs m' v.tag = queryEIDs m v.tag := by
      rw [queryEIDs_eq_filter, queryEIDs_eq_filter, hents, List.filter_append]
      have hzero : Tag.matches ⟨0, false⟩ v.tag = false :=
        matches_zero_flags v.tag (hinv.viewsWF v hv).1 hf
      have hfsing : List.filter (fun e => Tag.matches (etag m' e) v.tag)
          [m.componentNumInc] = [] := by
        simp only [List.filter_cons, List.filter_nil]
        rw [hetag_self, hzero]
        rfl
      rw [hfsing, List.append_nil]
      apply List.filter_congr
      intro x hx
      have hne : x ≠ m.componentNumInc := fun heq => hn_ent (heq ▸ hx)
      rw [hetag_ne x hne]
    rw [hq]
    exact hperm

theorem inv_newEntity {α : Type} (m : Manager α) (hinv : ManagerInv m)
    (h : m.componentNumInc + 1 < U32) : ManagerInv (newEntity m).2 := by
  have hn_byid : m.componentNumInc ∉ m.entitiesByID :=
    fun hmem =>
      absurd (hinv.entLt _ (hinv.byIDsub _ hmem)) (lt_irrefl _)
  refine inv_newEntity_aux m (newEntity m).2 hinv ?_ ?_ ?_ ?_ ?_ ?_ ?_ ?_ <;>
    rw [newEntity_eq m h]
  exact if_neg hn_byid

theorem inv_newComponent_aux {α : Type} (m m' : Manager α) (hinv : ManagerInv m)
    (hinc : m'.componentNumInc = m.componentNumInc + 1)
    (hents : m'.entities = m.entities)
    (hbyid : m'.entitiesByID = m.entitiesByID)
    (htags : m'.tags = m.tags)
    (hcomps : m'.components = m.components ++ [m.componentNumInc])
    (hctags : m'.compTags =
      mapInsert m.compTags m.componentNumInc ⟨1 <<< m.componentNumInc, false⟩)
    (hdata : m'.compData = mapInsert m.compData m.componentNumInc [])
    (hviews : m'.views = m.views) : ManagerInv m' := by
  have hn_comp : m.componentNumInc ∉ m.components :=
    fun hmem => absurd (hinv.compLt _ hmem) (lt_irrefl _)
  have hetag : ∀ x, etag m' x = etag m x := etag_of_tags_eq m' m htags
  have hdl_ne : ∀ c, c ≠ m.componentNumInc → ∀ e, dataLookup m' c e = dataLookup m c e := by
    intro c hc e
    rw [dataLookup, dataLookup, hdata, mapLookup_insert_ne _ _ _ _ hc]
  have hdl_self : ∀ e, dataLookup m' m.componentNumInc e = none := by
    intro e
    rw [dataLookup, hdata, mapLookup_insert_self]
    rfl
  constructor
  · rw [hents]; exact hinv.entsNodup
  · intro e he
    rw [hbyid] at he
    rw [hents]
    exact hinv.byIDsub e he
  · intro e he
    rw [hents] at he
    rw [hinc]
    exact Nat.lt_succ_of_lt (hinv.entLt e he)
  · intro c hc
    rw [hcomps] at hc
    rw [hinc]
    rcases List.mem_append.mp hc with h1 | h1
    · exact Nat.lt_succ_of_lt (hinv.compLt c h1)
    · simp only [List.mem_singleton] at h1
      exact h1 ▸ Nat.lt_succ_self _
  · intro c hc
    rw [hcomps] at hc
    rw [hctags]
    rcases List.mem_append.mp hc with h1 | h1
    · have hne : c ≠ m.componentNumInc := fun heq => hn_comp (heq ▸ h1)
      rw [mapLookup_insert_ne _ _ _ _ hne]
      exact hinv.compTagWF c h1
    · simp only [List.mem_singleton] at h1
      rw [h1, mapLookup_insert_self]
  · intro e he k hk
    rw [hents] at he
    rw [hetag] at hk
    rw [hcomps]
    exact List.mem_append.mpr (Or.inl (hinv.tagBits e he k hk))
  · intro e he c hc
    rw [hents] at he
    rw [hcomps] at hc
    rw [hetag]
    rcases List.mem_append.mp hc with h1 | h1
    · have hne : c ≠ m.componentNumInc := fun heq => hn_comp (heq ▸ h1)
      rw [hdl_ne c hne]
      exact hinv.dataInv e he c h1
    · simp only [List.mem_singleton] at h1
      rw [h1, hdl_self]
      simp only [Option.isSome_none, Bool.false_eq_true, iff_false]
      intro hcontra
      have := hinv.tagBits e he _ hcontra
      exact hn_comp this
  · intro c hc e he
    rw [hcomps] at hc
    rw [hinc]
    rcases List.mem_append.mp hc with h1 | h1
    · have hne : c ≠ m.componentNumInc := fun heq => hn_comp (heq ▸ h1)
      rw [hdl_ne c hne] at he
      exact Nat.lt_succ_of_lt (hinv.dataLt c h1 e he)
    · simp only [List.mem_singleton] at h1
      rw [h1, hdl_self] at he
      cases he
  · intro v hv
    rw [hviews] at hv
    refine ⟨(hinv.viewsWF v hv).1, fun hf => ?_⟩
    obtain ⟨hall, hperm⟩ := (hinv.viewsWF v hv).2 hf
    refine ⟨hall, ?_⟩
    rw [queryEIDs_ext m m' v.tag hents (fun e _ => hetag e)]
    exact hperm

theorem inv_newComponent {α : Type} (m : Manager α) (hinv : ManagerInv m)
    (h : m.componentNumInc < 63) :
    ∀ cm', newComponentChecked m = some cm' → ManagerInv cm'.2 := by
  intro cm' hcm'
  rw [newComponentChecked_eq m h] at hcm'
  cases hcm'
  exact inv_newComponent_aux m _ hinv rfl rfl rfl rfl rfl rfl rfl rfl

theorem tag_eq_mk_of_inverse_false (t : Tag) (h : t.inverse = false) :
    t = ⟨t.flags, false⟩ := by
  cases t with
  | mk f i => cases h; rfl

/-- A positive match pushes the required flags' bits into the candidate. -/
theorem testBit_of_matches_positive (candidate required : Tag)
    (hinv : required.inverse = false) (hm : candidate.matches required = true)
    (k : Nat) (hk : required.flags.testBit k = true) :
    candidate.flags.testBit k = true :=
  (matches_positive_iff candidate required hinv).mp hm k hk

theorem inv_addComponent {α : Type} (m : Manager α) (e : EntityID) (c : ComponentID)
    (d : α) (hinv : ManagerInv m) (he : e ∈ m.entitiesByID) (hc : c ∈ m.components) :
    ManagerInv (addComponent m e c d) := by
  obtain ⟨hEnts, hByID, hComps, hCtags, hInc, hTags, hData⟩ :=
    addComponent_core_fields m e c d
  have hee : e ∈ m.entities := hinv.byIDsub e he
  have hct : mapLookup m.compTags c = some ⟨1 <<< c, false⟩ := hinv.compTagWF c hc
  have hctag : ctag m c = ⟨1 <<< c, false⟩ := by rw [ctag, hct]; rfl
  have hetag_self : etag (addComponent m e c d) e =
      (etag m e).binaryORInPlace (ctag m c) := by
    rw [etag_addComponent, etag_addCore_self]
  have hetag_ne : ∀ x, x ≠ e → etag (addComponent m e c d) x = etag m x := by
    intro x hx
    rw [etag_addComponent, etag_addCore_ne _ _ _ _ _ hx]
  have hafter_testBit : ∀ k,
      ((etag m e).binaryORInPlace (ctag m c)).flags.testBit k =
        ((etag m e).flags.testBit k || (k == c)) := by
    intro k
    rw [Tag.binaryORInPlace, hctag]
    exact or_two_pow_testBit (etag m e).flags c k
  have hdl_self : dataLookup (addComponent m e c d) c e = some d := by
    rw [dataLookup_addComponent, dataLookup_addCore_self]
  have hdl_ne : ∀ c' x, c' ≠ c ∨ x ≠ e →
      dataLookup (addComponent m e c d) c' x = dataLookup m c' x := by
    intro c' x hx
    rw [dataLookup_addComponent]
    by_cases hcc : c' = c
    · rcases hx with h1 | h1
      · exact absurd hcc h1
      · rw [hcc]
        exact dataLookup_addCore_nee _ _ _ _ _ h1
    · exact dataLookup_addCore_necomp _ _ _ _ _ _ hcc
  constructor
  · rw [hEnts]; exact hinv.entsNodup
  · intro x hx
    rw [hByID] at hx
    rw [hEnts]
    exact hinv.byIDsub x hx
  · intro x hx
    rw [hEnts] at hx
    rw [hInc]
    exact hinv.entLt x hx
  · intro c' hc'
    rw [hComps] at hc'
    rw [hInc]
    exact hinv.compLt c' hc'
  · intro c' hc'
    rw [hComps] at hc'
    rw [hCtags]
    exact hinv.compTagWF c' hc'
  · -- tagBits
    intro x hx k hk
    rw [hEnts] at hx
    rw [hComps]
    by_cases hxe : x = e
    · subst hxe
      rw [hetag_self] at hk
      rw [hafter_testBit k] at hk
      rcases Bool.or_eq_true_iff.mp hk with h1 | h1
      · exact hinv.tagBits x hx k h1
      · have : k = c := by simpa using h1
        exact this ▸ hc
    · rw [hetag_ne x hxe] at hk
      exact hinv.tagBits x hx k hk
  · -- dataInv
    intro x hx c' hc'
    rw [hEnts] at hx
    rw [hComps] at hc'
    by_cases hxe : x = e
    · subst hxe
      by_cases hcc : c' = c
      · subst hcc
        rw [hetag_self, hafter_testBit, hdl_self]
        simp
      · rw [hetag_self, hafter_testBit, hdl_ne c' x (Or.inl hcc)]
        rw [show (c' == c) = false from beq_eq_false_iff_ne.mpr hcc]
        rw [Bool.or_false]
        exact hinv.dataInv x hx c' hc'
    · rw [hetag_ne x hxe, hdl_ne c' x (Or.inr hxe)]
      exact hinv.dataInv x hx c' hc'
  · -- dataLt
    intro c' hc' x hx
    rw [hComps] at hc'
    rw [hInc]
    by_cases hcc : c' = c
    · subst hcc
      by_cases hxe : x = e
      · subst hxe
        exact hinv.entLt x hee
      · rw [hdl_ne c' x (Or.inr hxe)] at hx
        exact hinv.dataLt c' hc' x hx
    · rw [hdl_ne c' x (Or.inl hcc)] at hx
      exact hinv.dataLt c' hc' x hx
  · -- viewsWF
    intro v' hv'
    rw [addComponent_views] at hv'
    obtain ⟨v, hv, hfv⟩ := List.mem_map.mp hv'
    have hvinv : v.tag.inverse = false := (hinv.viewsWF v hv).1
    have hmono : (etag m e).matches v.tag = true →
        ((etag m e).binaryORInPlace (ctag m c)).matches v.tag = true :=
      matches_mono_or _ _ _ hvinv
    by_cases hb : (!((etag m e).matches v.tag) &&
        ((etag m e).binaryORInPlace (ctag m c)).matches v.tag) = true
    · -- edge fires: view gains the entity
      rw [if_pos hb] at hfv
      obtain ⟨hbefore, hafter⟩ := Bool.and_eq_true_iff.mp hb
      have hbefore' : (etag m e).matches v.tag = false := by
        simpa using hbefore
      subst hfv
      have hvtag : (viewAdd (addCore m e c d) v e).tag = v.tag := rfl
      refine ⟨by rw [hvtag]; exact hvinv, fun hf => ?_⟩
      rw [hvtag] at hf
      obtain ⟨hall, hperm⟩ := (hinv.viewsWF v hv).2 hf
      -- the freshly resolved query result
      have hqr : ∃ qr, getEntityByID (addCore m e c d) e [BuildElem.tagElem v.tag] =
          some qr ∧ qr.eid = e := by
        apply getEntityByID_some
        · show e ∈ m.entitiesByID
          exact he
        · rw [buildTag_single, ← tag_eq_mk_of_inverse_false v.tag hvinv,
            etag_addCore_self]
          exact hafter
        · intro c' hc' hreq
          rw [buildTag_single, ← tag_eq_mk_of_inverse_false v.tag hvinv] at hreq
          have hc'm : c' ∈ m.components := hc'
          have hct' : ctag (addCore m e c d) c' = ⟨1 <<< c', false⟩ := by
            rw [ctag, show (addCore m e c d).compTags = m.compTags from rfl,
              hinv.compTagWF c' hc'm]
            rfl
          rw [hct', matches_positive_eq _ _ rfl] at hreq
          have hbit : v.tag.flags.testBit c' = true :=
            (land_two_pow_eq_iff _ _).mp (beq_iff_eq.mp hreq)
          have hbit_after : ((etag m e).binaryORInPlace (ctag m c)).flags.testBit c' = true :=
            testBit_of_matches_positive _ _ hvinv hafter c' hbit
          rw [hafter_testBit c'] at hbit_after
          by_cases hcc : c' = c
          · rw [hcc, dataLookup_addCore_self]
            rfl
          · rcases Bool.or_eq_true_iff.mp hbit_after with h1 | h1
            · rw [show dataLookup (addCore m e c d) c' e = dataLookup m c' e from
                dataLookup_addCore_necomp m e e c c' d hcc]
              exact (hinv.dataInv e hee c' hc'm).mp h1
            · exact absurd (by simpa using h1) hcc
      obtain ⟨qr, hqr_eq, hqr_eid⟩ := hqr
      have hents_eq : (viewAdd (addCore m e c d) v e).entities =
          v.entities ++ [some qr] := by
        rw [viewAdd, hqr_eq]
      constructor
      · -- allSome
        intro x hx
        rw [hents_eq] at hx
        rcases List.mem_append.mp hx with h1 | h1
        · exact hall x h1
        · simp only [List.mem_singleton] at h1
          rw [h1]
          rfl
      · -- perm
        have hvEIDs : viewEIDs (viewAdd (addCore m e c d) v e) =
            viewEIDs v ++ [e] := by
          rw [viewEIDs, hents_eq, viewEIDsL_append, viewEIDsL_some_singleton, hqr_eid]
          rfl
        have hquery : (queryEIDs (addComponent m e c d) v.tag).Perm
            (e :: queryEIDs m v.tag) := by
          rw [queryEIDs_eq_filter, queryEIDs_eq_filter, hEnts]
          apply filter_cons_perm m.entities e _ _ hinv.entsNodup hee
          · rw [hetag_self]
            exact hafter
          · exact hbefore'
          · intro x _ hx
            rw [hetag_ne x hx]
        rw [hvEIDs, hvtag]
        have hstep : (viewEIDs v ++ [e]).Perm (e :: viewEIDs v) :=
          @List.perm_append_comm _ (viewEIDs v) [e]
        exact hstep.trans ((hperm.cons e).trans hquery.symm)
    · -- no edge: the view and its query are unchanged
      rw [if_neg hb] at hfv
      subst hfv
      refine ⟨hvinv, fun hf => ?_⟩
      obtain ⟨hall, hperm⟩ := (hinv.viewsWF v hv).2 hf
      refine ⟨hall, ?_⟩
      have hsame : ((etag m e).binaryORInPlace (ctag m c)).matches v.tag =
          (etag m e).matches v.tag := by
        cases hbm : (etag m e).matches v.tag with
        | true => exact hmono hbm
        | false =>
          have hne : ((etag m e).binaryORInPlace (ctag m c)).matches v.tag ≠ true := by
            intro hT
            exact hb (by rw [hbm, hT]; rfl)
          simp at hne
          exact hne
      have hquery : queryEIDs (addComponent m e c d) v.tag = queryEIDs m v.tag := by
        rw [queryEIDs_eq_filter, queryEIDs_eq_filter, hEnts]
        apply List.filter_congr
        intro x hx
        by_cases hxe : x = e
        · subst hxe
          rw [hetag_self, hsame]
        · rw [hetag_ne x hxe]
      rw [hquery]
      exact hperm

theorem inv_removeComponent {α : Type} (m : Manager α) (e : EntityID) (c : ComponentID)
    (hinv : ManagerInv m) (he : e ∈ m.entitiesByID) (hc : c ∈ m.components)
    (hbit : (etag m e).flags.testBit c = true) :
    ManagerInv (removeComponent m e c) := by
  obtain ⟨hEnts, hByID, hComps, hCtags, hInc, hTags, hData⟩ :=
    removeComponent_core_fields m e c
  have hee : e ∈ m.entities := hinv.byIDsub e he
  have hct : mapLookup m.compTags c = some ⟨1 <<< c, false⟩ := hinv.compTagWF c hc
  have hctag : ctag m c = ⟨1 <<< c, false⟩ := by rw [ctag, hct]; rfl
  have hetag_self : etag (removeComponent m e c) e =
      (etag m e).binaryNOTInPlace (ctag m c) := by
    rw [etag_removeComponent, etag_removeCore_self]
  have hetag_ne : ∀ x, x ≠ e → etag (removeComponent m e c) x = etag m x := by
    intro x hx
    rw [etag_removeComponent, etag_removeCore_ne _ _ _ _ hx]
  have hafter_testBit : ∀ k,
      ((etag m e).binaryNOTInPlace (ctag m c)).flags.testBit k =
        ((etag m e).flags.testBit k && !(k == c)) := by
    intro k
    rw [Tag.binaryNOTInPlace, hctag]
    exact xor_two_pow_testBit (etag m e).flags c k hbit
  have hdl_self : dataLookup (removeComponent m e c) c e = none := by
    rw [dataLookup_removeComponent, dataLookup_removeCore_self]
  have hdl_ne : ∀ c' x, c' ≠ c ∨ x ≠ e →
      dataLookup (removeComponent m e c) c' x = dataLookup m c' x := by
    intro c' x hx
    rw [dataLookup_removeComponent]
    by_cases hcc : c' = c
    · rcases hx with h1 | h1
      · exact absurd hcc h1
      · rw [hcc]
        exact dataLookup_removeCore_nee _ _ _ _ h1
    · exact dataLookup_removeCore_necomp _ _ _ _ _ hcc
  -- the positive anti-monotonicity: a match after removal implies one before
  have hback : ∀ t : Tag, t.inverse = false →
      ((etag m e).binaryNOTInPlace (ctag m c)).matches t = true →
      (etag m e).matches t = true := by
    intro t htinv hm
    have hor : ((etag m e).binaryNOTInPlace (ctag m c)).binaryORInPlace
        (ctag m c) = etag m e := by
      rw [Tag.binaryNOTInPlace, Tag.binaryORInPlace, hctag]
      show Tag.mk (((etag m e).flags ^^^ 1 <<< c) ||| 1 <<< c) (etag m e).inverse =
        etag m e
      rw [xor_or_cancel _ _ hbit]
    rw [← hor]
    exact matches_mono_or _ _ _ htinv hm
  constructor
  · rw [hEnts]; exact hinv.entsNodup
  · intro x hx
    rw [hByID] at hx
    rw [hEnts]
    exact hinv.byIDsub x hx
  · intro x hx
    rw [hEnts] at hx
    rw [hInc]
    exact hinv.entLt x hx
  · intro c' hc'
    rw [hComps] at hc'
    rw [hInc]
    exact hinv.compLt c' hc'
  · intro c' hc'
    rw [hComps] at hc'
    rw [hCtags]
    exact hinv.compTagWF c' hc'
  · -- tagBits
    intro x hx k hk
    rw [hEnts] at hx
    rw [hComps]
    by_cases hxe : x = e
    · subst hxe
      rw [hetag_self, hafter_testBit k] at hk
      exact hinv.tagBits x hx k (Bool.and_eq_true_iff.mp hk).1
    · rw [hetag_ne x hxe] at hk
      exact hinv.tagBits x hx k hk
  · -- dataInv
    intro x hx c' hc'
    rw [hEnts] at hx
    rw [hComps] at hc'
    by_cases hxe : x = e
    · subst hxe
      by_cases hcc : c' = c
      · rw [hcc, hetag_self, hafter_testBit, hdl_self]
        simp
      · rw [hetag_self, hafter_testBit, hdl_ne c' x (Or.inl hcc)]
        rw [show (c' == c) = false from beq_eq_false_iff_ne.mpr hcc]
        simp only [Bool.not_false, Bool.and_true]
        exact hinv.dataInv x hx c' hc'
    · rw [hetag_ne x hxe, hdl_ne c' x (Or.inr hxe)]
      exact hinv.dataInv x hx c' hc'
  · -- dataLt
    intro c' hc' x hx
    rw [hComps] at hc'
    rw [hInc]
    by_cases hcc : c' = c
    · by_cases hxe : x = e
      · rw [hcc, hxe, hdl_self] at hx
        cases hx
      · rw [hdl_ne c' x (Or.inr hxe)] at hx
        exact hinv.dataLt c' hc' x hx
    · rw [hdl_ne c' x (Or.inl hcc)] at hx
      exact hinv.dataLt c' hc' x hx
  · -- viewsWF
    intro v' hv'
    rw [removeComponent_views] at hv'
    obtain ⟨v, hv, hfv⟩ := List.mem_map.mp hv'
    have hvinv : v.tag.inverse = false := (hinv.viewsWF v hv).1
    by_cases hb : ((etag m e).matches v.tag &&
        !(((etag m e).binaryNOTInPlace (ctag m c)).matches v.tag)) = true
    · -- edge fires: view loses the entity
      rw [if_pos hb] at hfv
      obtain ⟨hbefore, hafter⟩ := Bool.and_eq_true_iff.mp hb
      have hafter' : ((etag m e).binaryNOTInPlace (ctag m c)).matches v.tag = false := by
        simp at hafter
        exact hafter
      subst hfv
      refine ⟨hvinv, fun hf => ?_⟩
      obtain ⟨hall, hperm⟩ := (hinv.viewsWF v hv).2 hf
      have hmem_query : e ∈ queryEIDs m v.tag := by
        rw [queryEIDs_eq_filter]
        exact List.mem_filter.mpr ⟨hee, hbefore⟩
      have hmem_view : e ∈ viewEIDs v := hperm.mem_iff.mpr hmem_query
      constructor
      · -- allSome after removal
        intro x hx
        exact hall x (viewRemove_subset v.entities e x hx)
      · -- perm after removal
        have hview_rm : (viewEIDsL (viewRemoveEntities v.entities e)).Perm
            ((viewEIDs v).erase e) :=
          viewEIDsL_viewRemove v.entities e hall hmem_view
        have hquery : (queryEIDs m v.tag).Perm
            (e :: queryEIDs (removeComponent m e c) v.tag) := by
          rw [queryEIDs_eq_filter, queryEIDs_eq_filter, hEnts]
          apply filter_cons_perm m.entities e _ _ hinv.entsNodup hee
          · exact hbefore
          · rw [hetag_self]
            exact hafter'
          · intro x _ hx
            rw [hetag_ne x hx]
        have hperm2 : ((viewEIDs v).erase e).Perm
            ((e :: queryEIDs (removeComponent m e c) v.tag).erase e) :=
          (hperm.trans hquery).erase e
        rw [List.erase_cons_head] at hperm2
        exact hview_rm.trans hperm2
    · -- no edge
      rw [if_neg hb] at hfv
      subst hfv
      refine ⟨hvinv, fun hf => ?_⟩
      obtain ⟨hall, hperm⟩ := (hinv.viewsWF v hv).2 hf
      refine ⟨hall, ?_⟩
      have hsame : ((etag m e).binaryNOTInPlace (ctag m c)).matches v.tag =
          (etag m e).matches v.tag := by
        cases hbm : (etag m e).matches v.tag with
        | true =>
          rcases Bool.eq_false_or_eq_true
              (((etag m e).binaryNOTInPlace (ctag m c)).matches v.tag) with h1 | h1
          · exact h1
          · exact absurd (by rw [hbm, h1]; rfl) hb
        | false =>
          rcases Bool.eq_false_or_eq_true
              (((etag m e).binaryNOTInPlace (ctag m c)).matches v.tag) with h1 | h1
          · exact absurd (hback v.tag hvinv h1) (by rw [hbm]; simp)
          · exact h1
      have hquery : queryEIDs (removeComponent m e c) v.tag = queryEIDs m v.tag := by
        rw [queryEIDs_eq_filter, queryEIDs_eq_filter, hEnts]
        apply List.filter_congr
        intro x hx
        by_cases hxe : x = e
        · subst hxe
          rw [hetag_self, hsame]
        · rw [hetag_ne x hxe]
      rw [hquery]
      exact hperm

theorem inv_createView {α : Type} (m : Manager α) (elems : List BuildElem)
    (hinv : ManagerInv m) : ManagerInv (createView m elems).1 := by
  have hq : ∀ t, queryEIDs (createView m elems).1 t = queryEIDs m t := by
    intro t
    exact queryEIDs_ext m (createView m elems).1 t rfl (fun x _ => rfl)
  constructor
  · exact hinv.entsNodup
  · exact hinv.byIDsub
  · exact hinv.entLt
  · exact hinv.compLt
  · exact hinv.compTagWF
  · exact hinv.tagBits
  · exact hinv.dataInv
  · exact hinv.dataLt
  · intro v hv
    have hv' : v ∈ m.views ++ [(createView m elems).2] := hv
    rcases List.mem_append.mp hv' with h1 | h1
    · refine ⟨(hinv.viewsWF v h1).1, fun hf => ?_⟩
      obtain ⟨hall, hperm⟩ := (hinv.viewsWF v h1).2 hf
      refine ⟨hall, ?_⟩
      rw [hq]
      exact hperm
    · simp only [List.mem_singleton] at h1
      subst h1
      rw [createView_snd]
      refine ⟨buildTag_inverse m elems, fun hf => ?_⟩
      constructor
      · intro x hx
        obtain ⟨qr, _, hqr⟩ := List.mem_map.mp hx
        rw [← hqr]
        rfl
      · show (viewEIDsL ((query m (buildTag m elems)).map some)).Perm _
        rw [viewEIDsL_map_some, hq]
        exact List.Perm.refl _

/-- The component-detaching fold of `DisposeEntity` keeps the invariant,
leaves every other field and every other entity alone, and clears the
processed signature bits of the disposed entity. -/
theorem dispose_fold_inv {α : Type} (e : EntityID) :
    ∀ (L : List ComponentID) (acc : Manager α), ManagerInv acc →
      e ∈ acc.entitiesByID → (∀ cid ∈ L, cid ∈ acc.components) →
      ManagerInv (L.foldl
        (fun a c => if hasComponent a e c then removeComponent a e c else a) acc) ∧
      (L.foldl (fun a c => if hasComponent a e c then removeComponent a e c else a)
        acc).entitiesByID = acc.entitiesByID ∧
      (L.foldl (fun a c => if hasComponent a e c then removeComponent a e c else a)
        acc).components = acc.components ∧
      (L.foldl (fun a c => if hasComponent a e c then removeComponent a e c else a)
        acc).entities = acc.entities ∧
      (L.foldl (fun a c => if hasComponent a e c then removeComponent a e c else a)
        acc).componentNumInc = acc.componentNumInc ∧
      (L.foldl (fun a c => if hasComponent a e c then removeComponent a e c else a)
        acc).views.length = acc.views.length ∧
      (∀ x, x ≠ e → etag (L.foldl
        (fun a c => if hasComponent a e c then removeComponent a e c else a) acc) x =
        etag acc x) ∧
      (∀ k, k ∈ L → (etag (L.foldl
        (fun a c => if hasComponent a e c then removeComponent a e c else a) acc)
        e).flags.testBit k = false) ∧
      (∀ k, k ∉ L → (etag (L.foldl
        (fun a c => if hasComponent a e c then removeComponent a e c else a) acc)
        e).flags.testBit k = (etag acc e).flags.testBit k) := by
  intro L
  induction L with
  | nil =>
    intro acc hinv he _
    refine ⟨hinv, rfl, rfl, rfl, rfl, rfl, fun x _ => rfl, ?_, fun k _ => rfl⟩
    intro k hk
    cases hk
  | cons c rest ih =>
    intro acc hinv he hL
    have hcacc : c ∈ acc.components := hL c (List.mem_cons_self _ _)
    have hhc := hasComponent_eq_testBit acc e c (hinv.compTagWF c hcacc)
    by_cases hhas : hasComponent acc e c = true
    · -- the component is detached
      have hbit : (etag acc e).flags.testBit c = true := by rw [← hhc]; exact hhas
      have hinv1 : ManagerInv (removeComponent acc e c) :=
        inv_removeComponent acc e c hinv he hcacc hbit
      obtain ⟨hE, hB, hC, hT, hI, hTags, hD⟩ := removeComponent_core_fields acc e c
      have he1 : e ∈ (removeComponent acc e c).entitiesByID := by rw [hB]; exact he
      have hL1 : ∀ cid ∈ rest, cid ∈ (removeComponent acc e c).components := by
        intro cid hcid
        rw [hC]
        exact hL cid (List.mem_cons_of_mem _ hcid)
      have hctag : ctag acc c = ⟨1 <<< c, false⟩ := by
        rw [ctag, hinv.compTagWF c hcacc]
        rfl
      have hetag1_self : ∀ k, (etag (removeComponent acc e c) e).flags.testBit k =
          ((etag acc e).flags.testBit k && !(k == c)) := by
        intro k
        rw [etag_removeComponent, etag_removeCore_self, Tag.binaryNOTInPlace, hctag]
        exact xor_two_pow_testBit (etag acc e).flags c k hbit
      have hetag1_ne : ∀ x, x ≠ e → etag (removeComponent acc e c) x = etag acc x := by
        intro x hx
        rw [etag_removeComponent, etag_removeCore_ne _ _ _ _ hx]
      obtain ⟨ihInv, ihB, ihC, ihE, ihI, ihV, ihNe, ihIn, ihOut⟩ :=
        ih (removeComponent acc e c) hinv1 he1 hL1
      have hfold : (c :: rest).foldl
          (fun a c => if hasComponent a e c then removeComponent a e c else a) acc =
          rest.foldl (fun a c => if hasComponent a e c then removeComponent a e c else a)
            (removeComponent acc e c) := by
        rw [List.foldl_cons, if_pos hhas]
      rw [hfold]
      refine ⟨ihInv, by rw [ihB, hB], by rw [ihC, hC], by rw [ihE, hE],
        by rw [ihI, hI], ?_, ?_, ?_, ?_⟩
      · rw [ihV]
        have : (removeComponent acc e c).views.length = acc.views.length := by
          rw [removeComponent_views, List.length_map]
        rw [this]
      · intro x hx
        rw [ihNe x hx, hetag1_ne x hx]
      · intro k hk
        rcases List.mem_cons.mp hk with h1 | h1
        · by_cases hkr : k ∈ rest
          · exact ihIn k hkr
          · rw [ihOut k hkr, hetag1_self k, h1]
            simp
        · exact ihIn k h1
      · intro k hk
        have hkc : k ≠ c := fun heq => hk (heq ▸ List.mem_cons_self _ _)
        have hkr : k ∉ rest := fun hmem => hk (List.mem_cons_of_mem _ hmem)
        rw [ihOut k hkr, hetag1_self k,
          show (k == c) = false from beq_eq_false_iff_ne.mpr hkc]
        simp
    · -- the component is skipped
      have hbit : (etag acc e).flags.testBit c = false := by
        rw [← hhc]
        simpa using hhas
      have hfold : (c :: rest).foldl
          (fun a c => if hasComponent a e c then removeComponent a e c else a) acc =
          rest.foldl (fun a c => if hasComponent a e c then removeComponent a e c else a)
            acc := by
        rw [List.foldl_cons, if_neg hhas]
      rw [hfold]
      obtain ⟨ihInv, ihB, ihC, ihE, ihI, ihV, ihNe, ihIn, ihOut⟩ :=
        ih acc hinv he (fun cid hcid => hL cid (List.mem_cons_of_mem _ hcid))
      refine ⟨ihInv, ihB, ihC, ihE, ihI, ihV, ihNe, ?_, ?_⟩
      · intro k hk
        rcases List.mem_cons.mp hk with h1 | h1
        · by_cases hkr : k ∈ rest
          · exact ihIn k hkr
          · rw [ihOut k hkr, h1]
            exact hbit
        · exact ihIn k h1
      · intro k hk
        have hkr : k ∉ rest := fun hmem => hk (List.mem_cons_of_mem _ hmem)
        exact ihOut k hkr

theorem inv_byid_shrink_aux {α : Type} (m m' : Manager α) (hinv : ManagerInv m)
    (hbyid : ∀ x, x ∈ m'.entitiesByID → x ∈ m.entitiesByID)
    (hents : m'.entities = m.entities) (htags : m'.tags = m.tags)
    (hcomps : m'.components = m.components) (hctags : m'.compTags = m.compTags)
    (hdata : m'.compData = m.compData) (hinc : m'.componentNumInc = m.componentNumInc)
    (hviews : m'.views = m.views) : ManagerInv m' := by
  have hetag : ∀ x, etag m' x = etag m x := etag_of_tags_eq m' m htags
  have hdl : ∀ c x, dataLookup m' c x = dataLookup m c x :=
    dataLookup_of_compData_eq m' m hdata
  constructor
  · rw [hents]; exact hinv.entsNodup
  · intro x hx
    rw [hents]
    exact hinv.byIDsub x (hbyid x hx)
  · intro x hx
    rw [hents] at hx
    rw [hinc]
    exact hinv.entLt x hx
  · intro c hc
    rw [hcomps] at hc
    rw [hinc]
    exact hinv.compLt c hc
  · intro c hc
    rw [hcomps] at hc
    rw [hctags]
    exact hinv.compTagWF c hc
  · intro x hx k hk
    rw [hents] at hx
    rw [hetag] at hk
    rw [hcomps]
    exact hinv.tagBits x hx k hk
  · intro x hx c hc
    rw [hents] at hx
    rw [hcomps] at hc
    rw [hetag, hdl]
    exact hinv.dataInv x hx c hc
  · intro c hc x hx
    rw [hcomps] at hc
    rw [hdl] at hx
    rw [hinc]
    exact hinv.dataLt c hc x hx
  · intro v hv
    rw [hviews] at hv
    refine ⟨(hinv.viewsWF v hv).1, fun hf => ?_⟩
    obtain ⟨hall, hperm⟩ := (hinv.viewsWF v hv).2 hf
    refine ⟨hall, ?_⟩
    rw [queryEIDs_ext m m' v.tag hents (fun x _ => hetag x)]
    exact hperm

theorem disposeEntity_eq {α : Type} (m : Manager α) (e : EntityID) :
    disposeEntity m e =
      { (m.components.foldl
          (fun acc c => if hasComponent acc e c then removeComponent acc e c else acc) m)
        with
        entitiesByID := (m.components.foldl
          (fun acc c => if hasComponent acc e c then removeComponent acc e c else acc)
          m).entitiesByID.filter (fun x => x != e) } := rfl

theorem inv_disposeEntity {α : Type} (m : Manager α) (e : EntityID)
    (hinv : ManagerInv m) (he : e ∈ m.entitiesByID) : ManagerInv (disposeEntity m e) := by
  obtain ⟨hInv, hB, hC, hE, hI, hV, hNe, hIn, hOut⟩ :=
    dispose_fold_inv e m.components m hinv he (fun cid hcid => hcid)
  refine inv_byid_shrink_aux
    (m.components.foldl
      (fun acc c => if hasComponent acc e c then removeComponent acc e c else acc) m)
    (disposeEntity m e) hInv ?_ rfl rfl rfl rfl rfl rfl rfl
  intro x hx
  exact (List.mem_filter.mp hx).1

/-- After `DisposeEntity`, the disposed entity's signature is the empty mask. -/
theorem disposeEntity_etag_zero {α : Type} (m : Manager α) (e : EntityID)
    (hinv : ManagerInv m) (he : e ∈ m.entitiesByID) :
    (etag (disposeEntity m e) e).flags = 0 := by
  obtain ⟨hInv, hB, hC, hE, hI, hV, hNe, hIn, hOut⟩ :=
    dispose_fold_inv e m.components m hinv he (fun cid hcid => hcid)
  have hee : e ∈ m.entities := hinv.byIDsub e he
  have hetag : etag (disposeEntity m e) e = etag (m.components.foldl
      (fun acc c => if hasComponent acc e c then removeComponent acc e c else acc) m)
      e := by
    rw [disposeEntity_eq]
    exact etag_of_tags_eq _ _ rfl e
  rw [hetag]
  apply Nat.eq_of_testBit_eq
  intro k
  rw [Nat.zero_testBit]
  by_cases hk : k ∈ m.components
  · exact hIn k hk
  · rw [hOut k hk]
    rcases Bool.eq_false_or_eq_true ((etag m e).flags.testBit k) with h1 | h1
    · exact absurd (hinv.tagBits e hee k h1) hk
    · exact h1

/-- After `DisposeEntity`, the disposed entity is gone from the ID index. -/
theorem disposeEntity_not_byID {α : Type} (m : Manager α) (e : EntityID) :
    e ∉ (disposeEntity m e).entitiesByID := by
  rw [disposeEntity_eq]
  intro hmem
  have := (List.mem_filter.mp hmem).2
  simp at this

theorem inv_setDestructor {α : Type} (m : Manager α) (c : ComponentID)
    (hinv : ManagerInv m) : ManagerInv (setDestructor m c) :=
  inv_byid_shrink_aux m (setDestructor m c) hinv (fun _ hx => hx) rfl rfl rfl rfl rfl
    rfl rfl

/-- Every valid API call preserves the manager invariant. -/
theorem inv_execOp {α : Type} (m : Manager α) (op : Op α) (hinv : ManagerInv m)
    (hv : validOp m op = true) : ManagerInv (execOp m op) := by
  cases op with
  | newEntity =>
    have h : m.componentNumInc + 1 < U32 := of_decide_eq_true hv
    exact inv_newEntity m hinv h
  | newComponent =>
    have h : m.componentNumInc < 63 := of_decide_eq_true hv
    have hres := inv_newComponent m hinv h _ (newComponentChecked_eq m h)
    show ManagerInv (match newComponentChecked m with
      | none => m
      | some (_, m') => m')
    rw [newComponentChecked_eq m h]
    exact hres
  | addComponent e c d =>
    rw [validOp] at hv
    obtain ⟨h1, h2⟩ := Bool.and_eq_true_iff.mp hv
    exact inv_addComponent m e c d hinv (of_decide_eq_true h1) (of_decide_eq_true h2)
  | removeComponent e c =>
    rw [validOp] at hv
    obtain ⟨h12, h3⟩ := Bool.and_eq_true_iff.mp hv
    obtain ⟨h1, h2⟩ := Bool.and_eq_true_iff.mp h12
    have he : e ∈ m.entitiesByID := of_decide_eq_true h1
    have hc : c ∈ m.components := of_decide_eq_true h2
    have hbit : (etag m e).flags.testBit c = true := by
      rw [← hasComponent_eq_testBit m e c (hinv.compTagWF c hc)]
      exact h3
    exact inv_removeComponent m e c hinv he hc hbit
  | disposeEntity e =>
    exact inv_disposeEntity m e hinv (of_decide_eq_true hv)
  | createView elems =>
    exact inv_createView m elems hinv
  | setDestructor c =>
    exact inv_setDestructor m c hinv

/-- A valid trace preserves the manager invariant. -/
theorem inv_execTrace {α : Type} :
    ∀ (ops : List (Op α)) (m : Manager α), ManagerInv m → validTrace m ops = true →
      ManagerInv (execTrace m ops) := by
  intro ops
  induction ops with
  | nil => intro m hinv _; exact hinv
  | cons op rest ih =>
    intro m hinv hv
    rw [validTrace] at hv
    obtain ⟨h1, h2⟩ := Bool.and_eq_true_iff.mp hv
    exact ih (execOp m op) (inv_execOp m op hinv h1) h2

/-- Every manager state reached by a valid trace from a fresh manager
satisfies the invariant. -/
theorem inv_reachable {α : Type} (ops : List (Op α))
    (hv : validTrace newManager ops = true) : ManagerInv (execTrace newManager ops) :=
  inv_execTrace ops newManager inv_newManager hv

theorem execTrace_append {α : Type} (m : Manager α) (l1 l2 : List (Op α)) :
    execTrace m (l1 ++ l2) = execTrace (execTrace m l1) l2 :=
  List.foldl_append _ _ _ _

theorem validTrace_append {α : Type} :
    ∀ (l1 : List (Op α)) (m : Manager α) (l2 : List (Op α)),
      validTrace m (l1 ++ l2) =
        (validTrace m l1 && validTrace (execTrace m l1) l2) := by
  intro l1
  induction l1 with
  | nil =>
    intro m l2
    simp [validTrace, execTrace]
  | cons op rest ih =>
    intro m l2
    show validTrace m (op :: (rest ++ l2)) = _
    rw [validTrace, ih (execOp m op) l2]
    rw [show validTrace m (op :: rest) = (validOp m op &&
      validTrace (execOp m op) rest) from rfl]
    rw [show execTrace m (op :: rest) = execTrace (execOp m op) rest from rfl]
    rw [Bool.and_assoc]

/-- Once an entity is disposed — out of the ID index, with an empty signature,
and below the ID counter — any further valid call keeps it that way. -/
theorem disposed_preserved_op {α : Type} (m : Manager α) (op : Op α) (e : EntityID)
    (hinv : ManagerInv m) (hv : validOp m op = true)
    (h1 : e ∉ m.entitiesByID) (h2 : (etag m e).flags = 0)
    (h3 : e < m.componentNumInc) :
    e ∉ (execOp m op).entitiesByID ∧ (etag (execOp m op) e).flags = 0 ∧
      e < (execOp m op).componentNumInc := by
  cases op with
  | newEntity =>
    have hlt : m.componentNumInc + 1 < U32 := of_decide_eq_true hv
    have hne : m.componentNumInc ∉ m.entitiesByID := fun hmem =>
      absurd (hinv.entLt _ (hinv.byIDsub _ hmem)) (lt_irrefl _)
    show e ∉ (newEntity m).2.entitiesByID ∧ (etag (newEntity m).2 e).flags = 0 ∧
      e < (newEntity m).2.componentNumInc
    rw [newEntity_eq m hlt]
    refine ⟨?_, ?_, Nat.lt_succ_of_lt h3⟩
    · rw [if_neg hne]
      intro hmem
      rcases List.mem_append.mp hmem with hm | hm
      · exact h1 hm
      · simp only [List.mem_singleton] at hm
        exact absurd hm (Nat.ne_of_lt h3)
    · rw [etag_of_tags_insert_ne _ m _ _ rfl e (Nat.ne_of_lt h3)]
      exact h2
  | newComponent =>
    have h : m.componentNumInc < 63 := of_decide_eq_true hv
    show e ∉ (match newComponentChecked m with
        | none => m
        | some (_, m') => m').entitiesByID ∧
      (etag (match newComponentChecked m with
        | none => m
        | some (_, m') => m') e).flags = 0 ∧
      e < (match newComponentChecked m with
        | none => m
        | some (_, m') => m').componentNumInc
    rw [newComponentChecked_eq m h]
    exact ⟨h1, h2, Nat.lt_succ_of_lt h3⟩
  | addComponent e' c d =>
    obtain ⟨hv1, _⟩ := Bool.and_eq_true_iff.mp hv
    have he' : e' ∈ m.entitiesByID := of_decide_eq_true hv1
    have hne : e ≠ e' := fun heq => h1 (heq ▸ he')
    obtain ⟨hE, hB, _, _, hI, _, _⟩ := addComponent_core_fields m e' c d
    show e ∉ (addComponent m e' c d).entitiesByID ∧
      (etag (addComponent m e' c d) e).flags = 0 ∧
      e < (addComponent m e' c d).componentNumInc
    refine ⟨by rw [hB]; exact h1, ?_, by rw [hI]; exact h3⟩
    rw [etag_addComponent, etag_addCore_ne m e' e c d hne]
    exact h2
  | removeComponent e' c =>
    obtain ⟨hv12, _⟩ := Bool.and_eq_true_iff.mp hv
    obtain ⟨hv1, _⟩ := Bool.and_eq_true_iff.mp hv12
    have he' : e' ∈ m.entitiesByID := of_decide_eq_true hv1
    have hne : e ≠ e' := fun heq => h1 (heq ▸ he')
    obtain ⟨hE, hB, _, _, hI, _, _⟩ := removeComponent_core_fields m e' c
    show e ∉ (removeComponent m e' c).entitiesByID ∧
      (etag (removeComponent m e' c) e).flags = 0 ∧
      e < (removeComponent m e' c).componentNumInc
    refine ⟨by rw [hB]; exact h1, ?_, by rw [hI]; exact h3⟩
    rw [etag_removeComponent, etag_removeCore_ne m e' e c hne]
    exact h2
  | disposeEntity e' =>
    have he' : e' ∈ m.entitiesByID := of_decide_eq_true hv
    have hne : e ≠ e' := fun heq => h1 (heq ▸ he')
    obtain ⟨hInv, hB, hC, hE, hI, hV, hNe, hIn, hOut⟩ :=
      dispose_fold_inv e' m.components m hinv he' (fun cid hcid => hcid)
    refine ⟨?_, ?_, ?_⟩
    · intro hmem
      have hmem' : e ∈ (m.components.foldl
          (fun acc c => if hasComponent acc e' c then removeComponent acc e' c else acc)
          m).entitiesByID := (List.mem_filter.mp hmem).1
      rw [hB] at hmem'
      exact h1 hmem'
    · have heq : etag (disposeEntity m e') e = etag (m.components.foldl
          (fun acc c => if hasComponent acc e' c then removeComponent acc e' c else acc)
          m) e := by
        rw [disposeEntity_eq]
        exact etag_of_tags_eq _ _ rfl e
      show (etag (disposeEntity m e') e).flags = 0
      rw [heq, hNe e hne]
      exact h2
    · show e < (disposeEntity m e').componentNumInc
      rw [show (disposeEntity m e').componentNumInc = (m.components.foldl
          (fun acc c => if hasComponent acc e' c then removeComponent acc e' c else acc)
          m).componentNumInc from rfl, hI]
      exact h3
  | createView elems =>
    exact ⟨h1, h2, h3⟩
  | setDestructor c =>
    exact ⟨h1, h2, h3⟩

theorem disposed_preserved_trace {α : Type} :
    ∀ (ops : List (Op α)) (m : Manager α) (e : EntityID), ManagerInv m →
      validTrace m ops = true →
      e ∉ m.entitiesByID → (etag m e).flags = 0 → e < m.componentNumInc →
      e ∉ (execTrace m ops).entitiesByID ∧ (etag (execTrace m ops) e).flags = 0 := by
  intro ops
  induction ops with
  | nil => intro m e _ _ h1 h2 _; exact ⟨h1, h2⟩
  | cons op rest ih =>
    intro m e hinv hvalid h1 h2 h3
    rw [validTrace] at hvalid
    obtain ⟨hv1, hv2⟩ := Bool.and_eq_true_iff.mp hvalid
    obtain ⟨g1, g2, g3⟩ := disposed_preserved_op m op e hinv hv1 h1 h2 h3
    exact ih (execOp m op) e (inv_execOp m op hinv hv1) hv2 g1 g2 g3

theorem matches_single_bit (f : Nat) (c : Nat) :
    Tag.matches ⟨f, false⟩ ⟨1 <<< c, false⟩ = f.testBit c := by
  rw [matches_positive_eq _ _ rfl]
  cases htb : f.testBit c with
  | false =>
    apply beq_eq_false_iff_ne.mpr
    intro hcontra
    rw [(land_two_pow_eq_iff _ _).mp hcontra] at htb
    cases htb
  | true => exact beq_iff_eq.mpr ((land_two_pow_eq_iff _ _).mpr htb)

theorem fetchLoop_eq_none_iff {α : Type} (m : Manager α) (e : EntityID) (t : Tag) :
    ∀ L : List ComponentID,
      (fetchLoop m e t L = none ↔
        ∃ c ∈ L, t.matches (ctag m c) = true ∧ dataLookup m c e = none) := by
  intro L
  induction L with
  | nil =>
    constructor
    · intro h; cases h
    · intro ⟨c, hc, _⟩; cases hc
  | cons c rest ih =>
    constructor
    · intro h
      rw [fetchLoop] at h
      by_cases hc : t.matches (ctag m c) = true
      · rw [if_pos hc] at h
        cases hd : dataLookup m c e with
        | none => exact ⟨c, List.mem_cons_self _ _, hc, hd⟩
        | some d =>
          rw [hd] at h
          cases hrest : fetchLoop m e t rest with
          | none =>
            obtain ⟨c', hc', hm', hd'⟩ := ih.mp hrest
            exact ⟨c', List.mem_cons_of_mem _ hc', hm', hd'⟩
          | some tl => rw [hrest] at h; cases h
      · rw [if_neg hc] at h
        obtain ⟨c', hc', hm', hd'⟩ := ih.mp h
        exact ⟨c', List.mem_cons_of_mem _ hc', hm', hd'⟩
    · intro ⟨c', hc', hm', hd'⟩
      rw [fetchLoop]
      rcases List.mem_cons.mp hc' with heq | hmem
      · subst heq
        rw [if_pos hm', hd']
      · by_cases hc : t.matches (ctag m c) = true
        · rw [if_pos hc]
          cases hd : dataLookup m c e with
          | none => rfl
          | some d =>
            rw [ih.mpr ⟨c', hmem, hm', hd'⟩]
        · rw [if_neg hc]
          exact ih.mpr ⟨c', hmem, hm', hd'⟩

theorem fetchLoop_eq_some {α : Type} (m : Manager α) (e : EntityID) (t : Tag) :
    ∀ (L : List ComponentID) (res : List (ComponentID × Option α)),
      fetchLoop m e t L = some res →
      res = L.filterMap (fun c =>
        if t.matches (ctag m c) = true then some (c, dataLookup m c e) else none) := by
  intro L
  induction L with
  | nil =>
    intro res h
    cases h
    rfl
  | cons c rest ih =>
    intro res h
    rw [fetchLoop] at h
    by_cases hc : t.matches (ctag m c) = true
    · rw [if_pos hc] at h
      cases hd : dataLookup m c e with
      | none => rw [hd] at h; cases h
      | some d =>
        rw [hd] at h
        cases hrest : fetchLoop m e t rest with
        | none => rw [hrest] at h; cases h
        | some tl =>
          rw [hrest] at h
          cases h
          rw [List.filterMap_cons, if_pos hc, hd]
          rw [ih tl hrest]
    · rw [if_neg hc] at h
      rw [List.filterMap_cons, if_neg hc]
      exact ih res h

theorem or_land_self (a b : Nat) : (a ||| b) &&& b = b :=
  (land_eq_right_iff _ _).mpr (fun i hb => by rw [Nat.testBit_or, hb]; simp)

/-- C6: `matches(candidate, required)` is, for a positive `required`, the test
that every bit set in `required`'s flags is set in `candidate`'s flags; for an
inverse `required` it is exactly the boolean negation of that whole-combination
test, not a per-bit exclusion. -/
theorem tag_matches_spec (candidate required : Tag) :
    Tag.matches candidate required = true ↔
      (if required.inverse = true then
        ¬ ∀ i, required.flags.testBit i = true → candidate.flags.testBit i = true
      else
        ∀ i, required.flags.testBit i = true → candidate.flags.testBit i = true) := by
  cases hinv : required.inverse with
  | false =>
    rw [if_neg Bool.false_ne_true]
    exact matches_positive_iff candidate required hinv
  | true =>
    rw [if_pos rfl]
    exact matches_inverse_iff candidate required hinv

/-- C10: `BuildTag` of a signature with the inverse marker set returns the
same flag bits with the marker cleared, so the result matches as a positive
signature. -/
theorem buildTag_clears_inverse {α : Type} (m : Manager α) (t : Tag)
    (_ht : t.inverse = true) :
    buildTag m [BuildElem.tagElem t] = ⟨t.flags, false⟩ ∧
    ∀ candidate : Tag,
      candidate.matches (buildTag m [BuildElem.tagElem t]) =
        (candidate.flags &&& t.flags == t.flags) := by
  refine ⟨buildTag_single m t, fun candidate => ?_⟩
  rw [buildTag_single]
  exact matches_positive_eq _ _ rfl

/-- Witness for C10 at the inverse signature with flags 3. -/
theorem buildTag_clears_inverse_witness :
    (Tag.mk 3 true).inverse = true ∧
    buildTag (newManager : Manager Nat) [BuildElem.tagElem ⟨3, true⟩] = ⟨3, false⟩ ∧
    Tag.matches ⟨1, false⟩ (buildTag (newManager : Manager Nat)
      [BuildElem.tagElem ⟨3, true⟩]) = (1 &&& 3 == 3) :=
  ⟨rfl, (buildTag_clears_inverse newManager ⟨3, true⟩ rfl).1,
   (buildTag_clears_inverse newManager ⟨3, true⟩ rfl).2 ⟨1, false⟩⟩

/-- C7: immediately after `AddComponent(c, p)` with a component registered by
this manager (whose tag is therefore positive), `HasComponent(c)` is true and
`GetComponentData(c)` returns `(p, true)`. -/
theorem addComponent_has_and_get {α : Type} (m : Manager α) (e : EntityID)
    (c : ComponentID) (p : α) (t : Tag)
    (hct : mapLookup m.compTags c = some t) (hti : t.inverse = false) :
    hasComponent (addComponent m e c p) e c = true ∧
    getComponentData (addComponent m e c p) e c = some p := by
  have hctag : ctag m c = t := by
    rw [ctag, hct]
    rfl
  constructor
  · rw [hasComponent]
    have hctag' : ctag (addComponent m e c p) c = t := by
      rw [ctag, show (addComponent m e c p).compTags = m.compTags from rfl, hct]
      rfl
    rw [hctag', etag_addComponent, etag_addCore_self, hctag,
      matches_positive_eq _ _ hti, Tag.binaryORInPlace]
    exact beq_iff_eq.mpr (or_land_self (etag m e).flags t.flags)
  · rw [getComponentData, dataLookup_addComponent, dataLookup_addCore_self]

/-- Witness for C7: a fresh component and entity, payload 5. -/
theorem addComponent_has_and_get_witness :
    mapLookup (execTrace (newManager : Manager Nat)
      [Op.newComponent, Op.newEntity]).compTags 0 = some ⟨1, false⟩ ∧
    hasComponent (addComponent (execTrace (newManager : Manager Nat)
      [Op.newComponent, Op.newEntity]) 1 0 5) 1 0 = true ∧
    getComponentData (addComponent (execTrace (newManager : Manager Nat)
      [Op.newComponent, Op.newEntity]) 1 0 5) 1 0 = some 5 :=
  ⟨by decide,
   (addComponent_has_and_get (execTrace newManager [Op.newComponent, Op.newEntity])
      1 0 5 ⟨1, false⟩ (by decide) rfl).1,
   (addComponent_has_and_get (execTrace newManager [Op.newComponent, Op.newEntity])
      1 0 5 ⟨1, false⟩ (by decide) rfl).2⟩

/-- C2 (code bug): in `mBug` — reachable by `NewComponent`, `NewEntity`, then
`RemoveComponent` of the never-held component — the entity's signature bit 0
is set although component 0 holds no payload entry for it: the XOR in
`binaryNOTInPlace` set the bit instead of leaving the signature alone,
violating the bit-iff-live-payload invariant. -/
theorem signature_payload_desync_on_remove :
    (etag mBug 1).flags.testBit 0 = true ∧ dataLookup mBug 0 1 = none := by
  constructor
  · decide
  · decide

/-- C4 (code bug): `RemoveComponent` on an entity that never held the
component invokes no destructor and leaves the payload map unchanged, but
flips the component's bit ON in the entity's signature instead of leaving it
unchanged. -/
theorem removeComponent_non_holder_sets_bit :
    wouldCallDestructor mBugPre 1 0 = false ∧
    mBugPost.compData = mBugPre.compData ∧
    etag mBugPost 1 ≠ etag mBugPre 1 ∧
    etag mBugPost 1 = ⟨1, false⟩ := by
  refine ⟨by decide, by decide, by decide, by decide⟩

/-- C3 (code bug): on a fresh manager only the first 63 `NewComponent` calls
succeed — they register components 0..62, each owning the single bit at its
ID — and the 64th call already takes the overflow panic, although the spec
(and the code's own "limited to 64" comment) promise 64 successes with the
65th failing. -/
theorem component_overflow_at_64th_call :
    validTrace (newManager : Manager Nat) (List.replicate 63 Op.newComponent) = true ∧
    m63.components = List.range 63 ∧
    (∀ c ∈ m63.components, mapLookup m63.compTags c = some ⟨1 <<< c, false⟩) ∧
    newComponentChecked m63 = none := by
  refine ⟨by decide, by decide, by decide, by decide⟩

theorem counter_ops_aux {α : Type} :
    ∀ (ops : List (Op α)) (m : Manager α),
      (∀ op ∈ ops, op = Op.newEntity ∨ op = Op.newComponent) →
      m.componentNumInc + ops.length ≤ 63 →
      validTrace m ops = true ∧
      (execTrace m ops).componentNumInc = m.componentNumInc + ops.length := by
  intro ops
  induction ops with
  | nil => intro m _ _; exact ⟨rfl, rfl⟩
  | cons op rest ih =>
    intro m hshape hle
    have hlen : m.componentNumInc + rest.length + 1 ≤ 63 := by
      simp only [List.length_cons] at hle
      omega
    have hinc63 : m.componentNumInc < 63 := by omega
    rcases hshape op (List.mem_cons_self _ _) with hop | hop
    · subst hop
      have hU : m.componentNumInc + 1 < U32 := by
        have : (63 : Nat) < U32 := by norm_num [U32]
        omega
      have hexec : (execOp m Op.newEntity).componentNumInc = m.componentNumInc + 1 := by
        show (newEntity m).2.componentNumInc = _
        rw [newEntity_eq m hU]
      obtain ⟨ihv, ihinc⟩ := ih (execOp m Op.newEntity)
        (fun op' hop' => hshape op' (List.mem_cons_of_mem _ hop'))
        (by rw [hexec]; omega)
      refine ⟨?_, ?_⟩
      · rw [validTrace]
        refine Bool.and_eq_true_iff.mpr ⟨decide_eq_true hU, ihv⟩
      · show (execTrace (execOp m Op.newEntity) rest).componentNumInc = _
        rw [ihinc, hexec, List.length_cons]
        omega
    · subst hop
      have hexec : (execOp m Op.newComponent).componentNumInc =
          m.componentNumInc + 1 := by
        show (match newComponentChecked m with
          | none => m
          | some (_, m') => m').componentNumInc = _
        rw [newComponentChecked_eq m hinc63]
      obtain ⟨ihv, ihinc⟩ := ih (execOp m Op.newComponent)
        (fun op' hop' => hshape op' (List.mem_cons_of_mem _ hop'))
        (by rw [hexec]; omega)
      refine ⟨?_, ?_⟩
      · rw [validTrace]
        refine Bool.and_eq_true_iff.mpr ⟨decide_eq_true hinc63, ihv⟩
      · show (execTrace (execOp m Op.newComponent) rest).componentNumInc = _
        rw [ihinc, hexec, List.length_cons]
        omega

/-- C9: `NewEntity` draws entity IDs from `componentNumInc`, the same counter
`NewComponent` uses for bit positions; after any 63 calls drawn from the two,
the next `NewComponent` call panics with the component overflow even if fewer
than 63 components were registered. -/
theorem shared_counter_overflow {α : Type} (ops : List (Op α))
    (hshape : ∀ op ∈ ops, op = Op.newEntity ∨ op = Op.newComponent)
    (hlen : ops.length = 63) :
    validTrace (newManager : Manager α) ops = true ∧
    (execTrace (newManager : Manager α) ops).componentNumInc = 63 ∧
    newComponentChecked (execTrace (newManager : Manager α) ops) = none := by
  obtain ⟨hv, hinc⟩ := counter_ops_aux ops newManager hshape
    (by rw [hlen]; rfl)
  rw [hlen, show (newManager : Manager α).componentNumInc = 0 from rfl,
    Nat.zero_add] at hinc
  refine ⟨hv, hinc, ?_⟩
  rw [newComponentChecked, if_pos (by rw [hinc])]

/-- Witness for C9: 63 `NewEntity` calls, zero components registered, and the
first `NewComponent` call already overflows. -/
theorem shared_counter_overflow_witness :
    validTrace (newManager : Manager Nat) (List.replicate 63 Op.newEntity) = true ∧
    (execTrace (newManager : Manager Nat)
      (List.replicate 63 Op.newEntity)).components = [] ∧
    newComponentChecked (execTrace (newManager : Manager Nat)
      (List.replicate 63 Op.newEntity)) = none :=
  ⟨(shared_counter_overflow (List.replicate 63 Op.newEntity)
      (by decide) (by decide)).1,
   by decide,
   (shared_counter_overflow (List.replicate 63 Op.newEntity)
      (by decide) (by decide)).2.2⟩

/-- C1 counterexample: a view created on the inverse signature of bit 0 is
empty immediately after `CreateView` returns, while `Query` on that inverse
signature returns entity 1 — `CreateView` rebuilds its signature through
`BuildTag`, which drops the inverse marker. -/
theorem createView_inverse_counterexample :
    mInverseView.views = [⟨⟨1, false⟩, []⟩] ∧
    queryEIDs mInverseView ⟨1, true⟩ = [1] := by
  refine ⟨by decide, by decide⟩

/-- C1 (amended): `CreateView` stores `BuildTag` of its arguments, which
always clears the inverse marker, so the guarantee holds for the positive
signature actually stored: immediately after `CreateView` the new view equals
the `Query` on the built signature, and along every valid trace (calls on
live entities and registered components, removals only of held components)
every registered view with a non-empty signature is, as a set of EntityIDs, a
permutation of `Query` on its signature — in particular immediately after
every `AddComponent` or `RemoveComponent` that changes which entities
match. -/
theorem view_consistency_for_positive_signatures {α : Type} (ops : List (Op α))
    (hv : validTrace newManager ops = true) :
    (∀ v ∈ (execTrace (newManager : Manager α) ops).views,
      v.tag.inverse = false ∧
      (v.tag.flags ≠ 0 →
        (viewEIDs v).Perm (queryEIDs (execTrace newManager ops) v.tag))) ∧
    (∀ (m : Manager α) (elems : List BuildElem),
      viewEIDs (createView m elems).2 =
        queryEIDs (createView m elems).1 (buildTag m elems)) := by
  constructor
  · intro v hv'
    have hinv := inv_reachable ops hv
    exact ⟨(hinv.viewsWF v hv').1, fun hf => ((hinv.viewsWF v hv').2 hf).2⟩
  · intro m elems
    rw [queryEIDs_ext m (createView m elems).1 (buildTag m elems) rfl
      (fun x _ => rfl)]
    show viewEIDsL ((query m (buildTag m elems)).map some) = _
    rw [viewEIDsL_map_some]
    rfl

/-- Witness for C1 at a concrete trace: component 0, entity 1, a view on
component 0, then `AddComponent`; the view's EntityIDs match the query's. -/
theorem view_consistency_witness :
    validTrace (newManager : Manager Nat) opsViewWitness = true ∧
    (viewEIDs (ViewState.mk ⟨1, false⟩ [some ⟨1, [(0, some 7)]⟩])).Perm
      (queryEIDs mViewWitness ⟨1, false⟩) :=
  ⟨by decide,
   ((view_consistency_for_positive_signatures opsViewWitness (by decide)).1
      (ViewState.mk ⟨1, false⟩ [some ⟨1, [(0, some 7)]⟩]) (by decide)).2
      (by decide)⟩

/-- C5 counterexample: after disposing the only entity, `Query` on the empty
positive signature still returns its EntityID — disposal removes the entity
from the ID index but not from `manager.entities`, which `Query` scans. -/
theorem disposed_entity_in_empty_query :
    0 ∈ queryEIDs mDisposed ⟨0, false⟩ := by decide

/-- C5 (amended): along a valid trace, after `DisposeEntity(e)` the entity
appears in no subsequent `Query` on a positive signature with at least one
bit set, and in no registered view on such a signature; queries on the empty
or an inverse signature may still return it. -/
theorem dispose_completeness_nonempty_positive {α : Type}
    (ops1 ops2 : List (Op α)) (e : EntityID)
    (hv : validTrace newManager (ops1 ++ Op.disposeEntity e :: ops2) = true) :
    (∀ s : Tag, s.inverse = false → s.flags ≠ 0 →
      e ∉ queryEIDs (execTrace (newManager : Manager α)
        (ops1 ++ Op.disposeEntity e :: ops2)) s) ∧
    (∀ v ∈ (execTrace (newManager : Manager α)
        (ops1 ++ Op.disposeEntity e :: ops2)).views,
      v.tag.flags ≠ 0 → e ∉ viewEIDs v) := by
  rw [validTrace_append] at hv
  obtain ⟨hv1, hv2⟩ := Bool.and_eq_true_iff.mp hv
  have hinv1 : ManagerInv (execTrace (newManager : Manager α) ops1) :=
    inv_reachable ops1 hv1
  rw [validTrace] at hv2
  obtain ⟨hvd, hv3⟩ := Bool.and_eq_true_iff.mp hv2
  have he : e ∈ (execTrace (newManager : Manager α) ops1).entitiesByID :=
    of_decide_eq_true hvd
  have hinv2 : ManagerInv (execOp (execTrace (newManager : Manager α) ops1)
      (Op.disposeEntity e)) := inv_execOp _ _ hinv1 hvd
  have hnot : e ∉ (execOp (execTrace (newManager : Manager α) ops1)
      (Op.disposeEntity e)).entitiesByID :=
    disposeEntity_not_byID _ e
  have hzero : (etag (execOp (execTrace (newManager : Manager α) ops1)
      (Op.disposeEntity e)) e).flags = 0 :=
    disposeEntity_etag_zero _ e hinv1 he
  have hlt : e < (execOp (execTrace (newManager : Manager α) ops1)
      (Op.disposeEntity e)).componentNumInc := by
    have h1 : e ∈ (execTrace (newManager : Manager α) ops1).entities :=
      hinv1.byIDsub e he
    have h2 := hinv1.entLt e h1
    obtain ⟨_, _, _, _, hI, _, _, _, _⟩ :=
      dispose_fold_inv e (execTrace (newManager : Manager α) ops1).components
        (execTrace (newManager : Manager α) ops1) hinv1 he (fun c hc => hc)
    show e < (disposeEntity (execTrace (newManager : Manager α) ops1)
      e).componentNumInc
    rw [show (disposeEntity (execTrace (newManager : Manager α) ops1)
        e).componentNumInc =
      ((execTrace (newManager : Manager α) ops1).components.foldl
        (fun acc c => if hasComponent acc e c then removeComponent acc e c else acc)
        (execTrace (newManager : Manager α) ops1)).componentNumInc from rfl, hI]
    exact h2
  obtain ⟨hfin1, hfin2⟩ := disposed_preserved_trace ops2 _ e hinv2 hv3 hnot hzero hlt
  have hinvf : ManagerInv (execTrace (execOp (execTrace (newManager : Manager α)
      ops1) (Op.disposeEntity e)) ops2) := inv_execTrace ops2 _ hinv2 hv3
  have hfeq : execTrace (newManager : Manager α)
      (ops1 ++ Op.disposeEntity e :: ops2) =
      execTrace (execOp (execTrace (newManager : Manager α) ops1)
        (Op.disposeEntity e)) ops2 := by
    rw [execTrace_append]
    rfl
  rw [hfeq]
  constructor
  · intro s hsi hsf hmem
    rw [queryEIDs_eq_filter] at hmem
    have hmatch := (List.mem_filter.mp hmem).2
    rw [matches_positive_eq _ _ hsi] at hmatch
    have heq := beq_iff_eq.mp hmatch
    rw [hfin2, Nat.zero_and] at heq
    exact hsf heq.symm
  · intro v hvmem hf hmem
    obtain ⟨hvinv, hrest⟩ := hinvf.viewsWF v hvmem
    obtain ⟨hall, hperm⟩ := hrest hf
    have hq : e ∈ queryEIDs (execTrace (execOp (execTrace
        (newManager : Manager α) ops1) (Op.disposeEntity e)) ops2) v.tag :=
      hperm.mem_iff.mp hmem
    rw [queryEIDs_eq_filter] at hq
    have hmatch := (List.mem_filter.mp hq).2
    rw [matches_positive_eq _ _ hvinv] at hmatch
    have heq := beq_iff_eq.mp hmatch
    rw [hfin2, Nat.zero_and] at heq
    exact hf heq.symm

/-- Witness for C5 at a concrete trace: entity 1 with component 0 and a view
on it; after disposal neither the bit-0 query nor the view contains it. -/
theorem dispose_completeness_witness :
    validTrace (newManager : Manager Nat)
      (opsDisposeWitness ++ Op.disposeEntity 1 :: []) = true ∧
    1 ∉ queryEIDs mDisposeWitness ⟨1, false⟩ ∧
    1 ∉ viewEIDs (ViewState.mk (⟨1, false⟩ : Tag) ([] : List (Option (QR Nat)))) :=
  ⟨by decide,
   (dispose_completeness_nonempty_positive opsDisposeWitness [] 1 (by decide)).1
      ⟨1, false⟩ rfl (by decide),
   (dispose_completeness_nonempty_positive opsDisposeWitness [] 1 (by decide)).2
      (ViewState.mk ⟨1, false⟩ []) (by decide) (by decide)⟩

theorem filterMap_congr_mem {β γ : Type} (f g : β → Option γ) :
    ∀ l : List β, (∀ x ∈ l, f x = g x) → l.filterMap f = l.filterMap g := by
  intro l
  induction l with
  | nil => intro _; rfl
  | cons hd tl ih =>
    intro h
    rw [List.filterMap_cons, List.filterMap_cons, h hd (List.mem_cons_self _ _),
      ih (fun x hx => h x (List.mem_cons_of_mem _ hx))]

/-- C8 counterexample: with entity 1 holding component 0, `GetEntityByID` on
the inverse signature of bit 0 returns a non-nil QueryResult although the
entity's current signature does not satisfy that signature (`matches` is
false) — the function rebuilds the signature through `BuildTag`, which drops
the inverse marker. -/
theorem getEntityByID_inverse_counterexample :
    getEntityByID mHeld 1 [BuildElem.tagElem ⟨1, true⟩] ≠ none ∧
    Tag.matches (etag mHeld 1) ⟨1, true⟩ = false := by
  refine ⟨by decide, by decide⟩

/-- C8 (amended): `GetEntityByID` evaluates its signature through `BuildTag`,
which drops the inverse marker; with the manager's components registered as
usual it returns nil exactly when the ID is absent from the index, or the
entity's signature misses one of the signature's flag bits, or some
registered component required by those flags has no live payload for the ID;
otherwise it returns the entity paired with the payloads of exactly the
registered components required by those flags. -/
theorem getEntityByID_positive_spec {α : Type} (m : Manager α) (id : EntityID)
    (s : Tag)
    (hwf : ∀ c ∈ m.components, mapLookup m.compTags c = some ⟨1 <<< c, false⟩) :
    (getEntityByID m id [BuildElem.tagElem s] = none ↔
      id ∉ m.entitiesByID ∨ (etag m id).flags &&& s.flags ≠ s.flags ∨
        ∃ c ∈ m.components, s.flags.testBit c = true ∧ dataLookup m c id = none) ∧
    (∀ qr, getEntityByID m id [BuildElem.tagElem s] = some qr →
      qr.eid = id ∧
      qr.components = m.components.filterMap (fun c =>
        if s.flags.testBit c = true then some (c, dataLookup m c id) else none)) := by
  have hconv : ∀ c ∈ m.components,
      Tag.matches ⟨s.flags, false⟩ (ctag m c) = s.flags.testBit c := by
    intro c hc
    rw [ctag, hwf c hc]
    show Tag.matches ⟨s.flags, false⟩ ⟨1 <<< c, false⟩ = _
    exact matches_single_bit s.flags c
  by_cases hid : id ∈ m.entitiesByID
  · rw [getEntityByID, buildTag_single, if_pos hid, fetchComponentsForEntity]
    by_cases hm : (etag m id).matches ⟨s.flags, false⟩ = true
    · rw [if_neg (by simp [hm])]
      cases hloop : fetchLoop m id ⟨s.flags, false⟩ m.components with
      | none =>
        constructor
        · constructor
          · intro _
            obtain ⟨c, hc, hreq, hdat⟩ := (fetchLoop_eq_none_iff m id _ _).mp hloop
            rw [hconv c hc] at hreq
            exact Or.inr (Or.inr ⟨c, hc, hreq, hdat⟩)
          · intro _; rfl
        · intro qr h
          cases h
      | some res =>
        constructor
        · constructor
          · intro h
            cases h
          · intro h
            rcases h with h | h | h
            · exact absurd hid h
            · rw [matches_positive_eq _ _ rfl] at hm
              exact absurd (beq_iff_eq.mp hm) h
            · obtain ⟨c, hc, hbit, hdat⟩ := h
              have : fetchLoop m id ⟨s.flags, false⟩ m.components = none :=
                (fetchLoop_eq_none_iff m id _ _).mpr
                  ⟨c, hc, by rw [hconv c hc]; exact hbit, hdat⟩
              rw [hloop] at this
              cases this
        · intro qr h
          cases h
          refine ⟨rfl, ?_⟩
          show res = _
          rw [fetchLoop_eq_some m id _ m.components res hloop]
          apply filterMap_congr_mem
          intro c hc
          rw [hconv c hc]
    · rw [if_pos (by simp [hm])]
      constructor
      · constructor
        · intro _
          refine Or.inr (Or.inl ?_)
          rw [matches_positive_eq _ _ rfl] at hm
          intro hcontra
          exact hm (beq_iff_eq.mpr hcontra)
        · intro _; rfl
      · intro qr h
        cases h
  · rw [getEntityByID, if_neg hid]
    constructor
    · constructor
      · intro _
        exact Or.inl hid
      · intro _; rfl
    · intro qr h
      cases h

/-- Witness for C8 on the held-component state with the positive signature of
bit 0. -/
theorem getEntityByID_positive_spec_witness :
    (∀ c ∈ mHeld.components, mapLookup mHeld.compTags c = some ⟨1 <<< c, false⟩) ∧
    (getEntityByID mHeld 1 [BuildElem.tagElem ⟨1, false⟩] = none ↔
      1 ∉ mHeld.entitiesByID ∨ (etag mHeld 1).flags &&& 1 ≠ 1 ∨
        ∃ c ∈ mHeld.components, Nat.testBit 1 c = true ∧ dataLookup mHeld c 1 = none) :=
  ⟨by decide, (getEntityByID_positive_spec mHeld 1 ⟨1, false⟩ (by decide)).1⟩
